import Mathlib

/-!
Verification of the amdusias real-time audio engine core
(crates amdusias-core and amdusias-graph) against its specification.

The Rust source is shallowly embedded: `usize`/`u64` values become `Nat`
(cursor wraparound in the SPSC queue is congruent modulo `2 ^ 64`, and the
queue capacity divides `2 ^ 64`, so unbounded naturals are faithful as long
as the head/tail distance stays below the capacity, which the operations
maintain), fallible operations return `Except`, and `&mut self` methods are
modelled by explicit state passing: a method returns a pair of its Rust
result and the updated receiver, errors returning the receiver unchanged
exactly where the Rust code takes an early `return Err(...)` before any
mutation.
-/

/-! ## Scheduler (amdusias-core/src/schedule.rs)

`Scheduler<T>` stores events in a `BTreeMap<Nat, Vec<T>>`.
The `BTreeMap` is embedded as an association list whose keys are strictly
increasing; `schedule` inserts in key order, matching the extensional
behaviour of the B-tree.  The atomic position cursor (`AtomicU64`, relaxed
ordering, a pure timing hint per the spec) is carried as a plain `Nat`.
-/

/-- `Scheduler<T>`: events sorted by position, plus the position cursor. -/
structure Scheduler (T : Type) where
  events : List (Nat × List T)
  current_position : Nat

/-- `Scheduler::new()`. -/
def Scheduler.new (T : Type) : Scheduler T :=
  { events := [], current_position := 0 }

/-- Insertion into the sorted bucket list: the bucket at `position` receives
the event at its end (`entry(position).or_default().push(event)`); a missing
bucket is created at its sorted place, as in the `BTreeMap`. -/
def scheduleList {T : Type} (l : List (Nat × List T)) (position : Nat)
    (event : T) : List (Nat × List T) :=
  match l with
  | [] => [(position, [event])]
  | (q, es) :: rest =>
    if position < q then (position, [event]) :: (q, es) :: rest
    else if position = q then (q, es ++ [event]) :: rest
    else (q, es) :: scheduleList rest position event

/-- `Scheduler::schedule(position, event)`. -/
def Scheduler.schedule {T : Type} (s : Scheduler T) (position : Nat) (event : T) :
    Scheduler T :=
  { s with events := scheduleList s.events position event }

/-- `Scheduler::events_in_range(start, end)`: the `BTreeMap` range query
`range(start..end_)` yields the buckets with key in `[start, end_)` in
ascending key order; `flat_map` pairs each event with its bucket key.
The Rust method takes `&self` and cannot modify the scheduler. -/
def Scheduler.eventsInRange {T : Type} (s : Scheduler T) (start end_ : Nat) :
    List (Nat × T) :=
  (s.events.filter (fun b => start ≤ b.1 ∧ b.1 < end_)).flatMap
    (fun b => b.2.map (fun e => (b.1, e)))

/-- `Scheduler::drain_before(position)`: removes every bucket with key
`< position` (the collected `range(..position)` keys, in ascending order)
and returns their events paired with their key, in that order;
the remaining buckets are untouched. -/
def Scheduler.drainBefore {T : Type} (s : Scheduler T) (position : Nat) :
    List (Nat × T) × Scheduler T :=
  ((s.events.filter (fun b => b.1 < position)).flatMap
      (fun b => b.2.map (fun e => (b.1, e))),
   { s with events := s.events.filter (fun b => ¬ b.1 < position) })

/-- A scheduler built by a sequence of `schedule(position, event)` calls,
in call order. -/
def buildScheduler {T : Type} (calls : List (Nat × T)) : Scheduler T :=
  calls.foldl (fun s c => s.schedule c.1 c.2) (Scheduler.new T)

/-! Specification-side description of the query result, following the
spec's words: the events with position in the window, listed by ascending
position and, within one position, in the order `schedule` was called. -/

/-- Sorted insertion of a position into a strictly increasing list of
distinct positions (specification-side). -/
def insertPos (p : Nat) : List Nat → List Nat
  | [] => [p]
  | q :: rest =>
    if p < q then p :: q :: rest
    else if p = q then q :: rest
    else q :: insertPos p rest

/-- The distinct positions of a call sequence, in ascending order
(specification-side). -/
def sortedPositions {T : Type} (calls : List (Nat × T)) : List Nat :=
  calls.foldl (fun acc c => insertPos c.1 acc) []

/-- Modelled from the spec: "returns exactly the events with position in
`[start, end)`, ordered by position then insertion order".  For each
in-window position, in ascending order, the calls at that position in call
order. -/
def eventsSpec {T : Type} (calls : List (Nat × T)) (start end_ : Nat) :
    List (Nat × T) :=
  ((sortedPositions calls).filter (fun p => start ≤ p ∧ p < end_)).flatMap
    (fun p => calls.filter (fun c => c.1 = p))

/-! ### Scheduler lemmas -/

theorem mem_insertPos {p q : Nat} {ks : List Nat} :
    q ∈ insertPos p ks ↔ q = p ∨ q ∈ ks := by
  induction ks with
  | nil => simp [insertPos]
  | cons r rest ih =>
    by_cases h1 : p < r
    · simp [insertPos, h1]
    · by_cases h2 : p = r
      · subst h2
        simp only [insertPos, if_neg h1, if_true, List.mem_cons]
        tauto
      · simp only [insertPos, if_neg h1, if_neg h2, List.mem_cons, ih]
        tauto

theorem pairwise_insertPos {p : Nat} {ks : List Nat}
    (h : ks.Pairwise (· < ·)) : (insertPos p ks).Pairwise (· < ·) := by
  induction ks with
  | nil => simp [insertPos]
  | cons r rest ih =>
    rcases List.pairwise_cons.1 h with ⟨hr, hrest⟩
    by_cases h1 : p < r
    · rw [insertPos, if_pos h1]
      refine List.pairwise_cons.2 ⟨?_, h⟩
      intro x hx
      rcases List.mem_cons.1 hx with rfl | hx
      · exact h1
      · exact lt_trans h1 (hr x hx)
    · by_cases h2 : p = r
      · rw [insertPos, if_neg h1, if_pos h2]
        exact h
      · have hrp : r < p := lt_of_le_of_ne (not_lt.1 h1) (Ne.symm h2)
        rw [insertPos, if_neg h1, if_neg h2]
        refine List.pairwise_cons.2 ⟨?_, ih hrest⟩
        intro x hx
        rcases mem_insertPos.1 hx with rfl | hx
        · exact hrp
        · exact hr x hx

theorem keys_scheduleList {T : Type} (l : List (Nat × List T))
    (p : Nat) (e : T) :
    (scheduleList l p e).map Prod.fst = insertPos p (l.map Prod.fst) := by
  induction l with
  | nil => simp [scheduleList, insertPos]
  | cons b rest ih =>
    obtain ⟨q, es⟩ := b
    by_cases h1 : p < q
    · simp [scheduleList, insertPos, h1]
    · by_cases h2 : p = q
      · simp [scheduleList, insertPos, h1, h2]
      · simp [scheduleList, insertPos, h1, h2, ih]

theorem sortedPositions_append {T : Type} (calls : List (Nat × T))
    (c : Nat × T) :
    sortedPositions (calls ++ [c]) = insertPos c.1 (sortedPositions calls) := by
  simp [sortedPositions, List.foldl_append]

theorem pairwise_sortedPositions {T : Type} (calls : List (Nat × T)) :
    (sortedPositions calls).Pairwise (· < ·) := by
  induction calls using List.reverseRecOn with
  | nil => simp [sortedPositions]
  | append_singleton calls c ih =>
    rw [sortedPositions_append]
    exact pairwise_insertPos ih

theorem mem_sortedPositions {T : Type} {calls : List (Nat × T)}
    {q : Nat} : q ∈ sortedPositions calls ↔ ∃ c ∈ calls, c.1 = q := by
  induction calls using List.reverseRecOn with
  | nil => simp [sortedPositions]
  | append_singleton calls c ih =>
    rw [sortedPositions_append, mem_insertPos, ih]
    constructor
    · rintro (rfl | ⟨d, hd, rfl⟩)
      · exact ⟨c, by simp⟩
      · exact ⟨d, by simp [hd]⟩
    · rintro ⟨d, hd, rfl⟩
      rcases List.mem_append.1 hd with hd | hd
      · exact Or.inr ⟨d, hd, rfl⟩
      · simp only [List.mem_singleton] at hd
        subst hd
        exact Or.inl rfl

/-- The bucket of events stored at position `q`, or `[]` if absent. -/
def bucketD {T : Type} (l : List (Nat × List T)) (q : Nat) : List T :=
  ((l.find? (fun b => b.1 = q)).map Prod.snd).getD []

theorem bucketD_eq_nil_of_not_mem {T : Type} {l : List (Nat × List T)}
    {q : Nat} (h : q ∉ l.map Prod.fst) : bucketD l q = [] := by
  induction l with
  | nil => simp [bucketD]
  | cons b rest ih =>
    simp only [List.map_cons, List.mem_cons] at h
    push_neg at h
    have hb : ¬ b.1 = q := fun hc => h.1 hc.symm
    rw [bucketD, List.find?_cons_of_neg _ (by simpa using hb)]
    exact ih h.2

theorem bucketD_cons_self {T : Type} (b : Nat × List T)
    (rest : List (Nat × List T)) : bucketD (b :: rest) b.1 = b.2 := by
  rw [bucketD, List.find?_cons_of_pos _ (by simp)]
  rfl

theorem bucketD_cons_ne {T : Type} (b : Nat × List T)
    (rest : List (Nat × List T)) {q : Nat} (h : b.1 ≠ q) :
    bucketD (b :: rest) q = bucketD rest q := by
  rw [bucketD, List.find?_cons_of_neg _ (by simp [h])]
  rfl

theorem bucketD_scheduleList {T : Type} {l : List (Nat × List T)}
    (hs : (l.map Prod.fst).Pairwise (· < ·)) (p : Nat) (e : T)
    (q : Nat) :
    bucketD (scheduleList l p e) q = bucketD l q ++ (if q = p then [e] else []) := by
  induction l with
  | nil =>
    by_cases hq : q = p
    · subst hq
      rw [scheduleList]
      rw [bucketD_cons_self (q, [e]) []]
      simp [bucketD]
    · have hpq : (p, ([e] : List T)).1 ≠ q := fun hc => hq hc.symm
      rw [scheduleList, bucketD_cons_ne (p, [e]) [] hpq]
      simp [bucketD, hq]
  | cons b rest ih =>
    obtain ⟨r, es⟩ := b
    simp only [List.map_cons, List.pairwise_cons] at hs
    obtain ⟨hr, hrest⟩ := hs
    by_cases h1 : p < r
    · rw [scheduleList, if_pos h1]
      by_cases hq : q = p
      · subst hq
        have hnot : q ∉ ((r, es) :: rest).map Prod.fst := by
          intro hmem
          simp only [List.map_cons, List.mem_cons] at hmem
          rcases hmem with hc | hc
          · rw [hc] at h1
            exact lt_irrefl r h1
          · have h3 : r < q := hr q hc
            omega
        rw [bucketD_eq_nil_of_not_mem hnot]
        rw [bucketD_cons_self (q, [e]) ((r, es) :: rest)]
        simp
      · have hpq : (p, ([e] : List T)).1 ≠ q := fun hc => hq hc.symm
        rw [bucketD_cons_ne (p, [e]) _ hpq]
        simp [hq]
    · by_cases h2 : p = r
      · subst h2
        rw [scheduleList, if_neg h1, if_pos rfl]
        by_cases hq : q = p
        · subst hq
          rw [bucketD_cons_self (q, es ++ [e]) rest, bucketD_cons_self (q, es) rest]
          simp
        · have hpq1 : (p, es ++ [e]).1 ≠ q := fun hc => hq hc.symm
          have hpq2 : (p, es).1 ≠ q := fun hc => hq hc.symm
          rw [bucketD_cons_ne (p, es ++ [e]) _ hpq1, bucketD_cons_ne (p, es) _ hpq2]
          simp [hq]
      · rw [scheduleList, if_neg h1, if_neg h2]
        by_cases hq : q = r
        · subst hq
          rw [bucketD_cons_self (q, es) (scheduleList rest p e),
            bucketD_cons_self (q, es) rest]
          have hqp : ¬ q = p := fun hc => h2 hc.symm
          simp [hqp]
        · have hrq : (r, es).1 ≠ q := fun hc => hq hc.symm
          rw [bucketD_cons_ne (r, es) _ hrq, bucketD_cons_ne (r, es) _ hrq]
          exact ih hrest

theorem buildScheduler_append {T : Type} (calls : List (Nat × T)) (c : Nat × T) :
    buildScheduler (calls ++ [c]) =
      (buildScheduler calls).schedule c.1 c.2 := by
  simp [buildScheduler, List.foldl_append]

theorem keys_buildScheduler {T : Type} (calls : List (Nat × T)) :
    (buildScheduler calls).events.map Prod.fst = sortedPositions calls := by
  induction calls using List.reverseRecOn with
  | nil => simp [buildScheduler, Scheduler.new, sortedPositions]
  | append_singleton calls c ih =>
    rw [buildScheduler_append, sortedPositions_append, ← ih]
    exact keys_scheduleList _ _ _

theorem sorted_keys_buildScheduler {T : Type} (calls : List (Nat × T)) :
    ((buildScheduler calls).events.map Prod.fst).Pairwise (· < ·) := by
  rw [keys_buildScheduler]
  exact pairwise_sortedPositions calls

theorem bucketD_buildScheduler {T : Type} (calls : List (Nat × T)) (q : Nat) :
    bucketD (buildScheduler calls).events q =
      (calls.filter (fun c => c.1 = q)).map Prod.snd := by
  induction calls using List.reverseRecOn with
  | nil => simp [buildScheduler, Scheduler.new, bucketD]
  | append_singleton calls c ih =>
    rw [buildScheduler_append]
    show bucketD (scheduleList (buildScheduler calls).events c.1 c.2) q = _
    rw [bucketD_scheduleList (sorted_keys_buildScheduler calls) c.1 c.2 q, ih,
      List.filter_append, List.map_append]
    congr 1
    by_cases hq : q = c.1
    · subst hq
      simp
    · have : ¬ c.1 = q := fun hc => hq hc.symm
      simp [this, hq]

theorem bucketD_of_mem {T : Type} {l : List (Nat × List T)}
    (hn : (l.map Prod.fst).Nodup) {b : Nat × List T} (hb : b ∈ l) :
    bucketD l b.1 = b.2 := by
  induction l with
  | nil => cases hb
  | cons a rest ih =>
    simp only [List.map_cons, List.nodup_cons] at hn
    rcases List.mem_cons.1 hb with rfl | hb
    · exact bucketD_cons_self b rest
    · have ha : a.1 ≠ b.1 := fun hc => hn.1 (hc ▸ List.mem_map_of_mem Prod.fst hb)
      rw [bucketD_cons_ne a rest ha]
      exact ih hn.2 hb

theorem map_pair_of_fst_eq {T : Type} (p : Nat) :
    ∀ (m : List (Nat × T)), (∀ x ∈ m, x.1 = p) → m.map (fun x => (p, x.2)) = m := by
  intro m
  induction m with
  | nil => simp
  | cons x rest ih =>
    intro h
    have hx : x.1 = p := h x (by simp)
    have : (p, x.2) = x := by
      rw [← hx]
    simp only [List.map_cons, this]
    rw [ih (fun y hy => h y (by simp [hy]))]

theorem flatMap_filter_buckets {T : Type} (calls : List (Nat × T)) (P : Nat → Bool) :
    ∀ (l : List (Nat × List T)),
    (∀ b ∈ l, b.2 = (calls.filter (fun c => c.1 = b.1)).map Prod.snd) →
    (l.filter (fun b => P b.1)).flatMap (fun b => b.2.map (fun e => (b.1, e)))
      = ((l.map Prod.fst).filter P).flatMap (fun p => calls.filter (fun c => c.1 = p)) := by
  intro l
  induction l with
  | nil => simp
  | cons b rest ih =>
    intro h
    have hb : b.2 = (calls.filter (fun c => c.1 = b.1)).map Prod.snd := h b (by simp)
    have hrest := ih (fun x hx => h x (by simp [hx]))
    have hbucket : b.2.map (fun e => (b.1, e)) = calls.filter (fun c => c.1 = b.1) := by
      rw [hb, List.map_map]
      exact map_pair_of_fst_eq b.1 _
        (fun x hx => by simpa using (List.mem_filter.1 hx).2)
    by_cases hP : P b.1
    · simp only [List.filter_cons, List.map_cons, hP, if_pos, List.flatMap_cons, hrest,
        hbucket]
    · simp only [List.filter_cons, List.map_cons, hP, Bool.false_eq_true, if_neg,
        not_false_iff, hrest]

theorem eventsInRange_eq_spec {T : Type} (sch : Scheduler T) (calls : List (Nat × T))
    (hkeys : sch.events.map Prod.fst = sortedPositions calls)
    (hb : ∀ b ∈ sch.events, b.2 = (calls.filter (fun c => c.1 = b.1)).map Prod.snd)
    (s e : Nat) : sch.eventsInRange s e = eventsSpec calls s e := by
  unfold Scheduler.eventsInRange eventsSpec
  rw [← hkeys]
  exact flatMap_filter_buckets calls (fun p => decide (s ≤ p ∧ p < e)) sch.events hb

theorem hb_buildScheduler {T : Type} (calls : List (Nat × T)) :
    ∀ b ∈ (buildScheduler calls).events,
      b.2 = (calls.filter (fun c => c.1 = b.1)).map Prod.snd := by
  intro b hbmem
  have hn : ((buildScheduler calls).events.map Prod.fst).Nodup :=
    (sorted_keys_buildScheduler calls).imp Nat.ne_of_lt
  rw [← bucketD_of_mem hn hbmem]
  exact bucketD_buildScheduler calls b.1

/-- C6: for every scheduler built by a sequence of `schedule` calls and every
window, `events_in_range(start, end)` yields exactly the scheduled events with
position in `[start, end)`, ordered by ascending position and, among events at
one position, by the order `schedule` was called (`eventsSpec`); the query is
a pure read of the scheduler. -/
theorem scheduler_events_in_range_spec {T : Type} (calls : List (Nat × T))
    (start end_ : Nat) :
    (buildScheduler calls).eventsInRange start end_ = eventsSpec calls start end_ :=
  eventsInRange_eq_spec _ calls (keys_buildScheduler calls) (hb_buildScheduler calls)
    start end_

theorem insertPos_eq_cons {q : Nat} {ks : List Nat} (h : ∀ x ∈ ks, q < x) :
    insertPos q ks = q :: ks := by
  cases ks with
  | nil => rfl
  | cons r rest =>
    rw [insertPos, if_pos (h r (by simp))]

theorem filter_insertPos (P : Nat → Bool) {ks : List Nat} (hs : ks.Pairwise (· < ·))
    (q : Nat) :
    (insertPos q ks).filter P =
      if P q then insertPos q (ks.filter P) else ks.filter P := by
  induction ks with
  | nil =>
    by_cases hP : P q <;> simp [insertPos, hP]
  | cons r rest ih =>
    rcases List.pairwise_cons.1 hs with ⟨hr, hrest⟩
    by_cases h1 : q < r
    · rw [insertPos, if_pos h1]
      have hall : ∀ x ∈ (r :: rest).filter P, q < x := by
        intro x hx
        rcases List.mem_cons.1 (List.mem_of_mem_filter hx) with rfl | hx2
        · exact h1
        · exact lt_trans h1 (hr x hx2)
      by_cases hP : P q
      · rw [List.filter_cons, if_pos hP, insertPos_eq_cons hall, if_pos hP]
      · rw [List.filter_cons, if_neg (by simpa using hP)]
        simp [hP]
    · by_cases h2 : q = r
      · subst h2
        rw [insertPos, if_neg h1, if_pos rfl]
        by_cases hP : P q
        · rw [List.filter_cons, if_pos (by simpa using hP), if_pos hP]
          rw [insertPos, if_neg h1, if_pos rfl]
        · rw [List.filter_cons, if_neg (by simpa using hP), if_neg hP]
      · have hrq : r < q := lt_of_le_of_ne (not_lt.1 h1) (Ne.symm h2)
        rw [insertPos, if_neg h1, if_neg h2, List.filter_cons, ih hrest,
          List.filter_cons]
        by_cases hP : P q
        · by_cases hPr : P r
          · simp only [hP, hPr, if_true]
            rw [insertPos, if_neg (by omega : ¬ q < r), if_neg h2]
          · simp only [hP, hPr, Bool.false_eq_true, if_true, if_false]
        · by_cases hPr : P r
          · simp only [hP, hPr, Bool.false_eq_true, if_true, if_false]
          · simp only [hP, hPr, Bool.false_eq_true, if_false]

theorem sortedPositions_filter {T : Type} (P : Nat → Bool) (calls : List (Nat × T)) :
    sortedPositions (calls.filter (fun c => P c.1)) =
      (sortedPositions calls).filter P := by
  induction calls using List.reverseRecOn with
  | nil => simp [sortedPositions]
  | append_singleton calls c ih =>
    rw [List.filter_append, sortedPositions_append,
      filter_insertPos P (pairwise_sortedPositions calls), ← ih]
    by_cases hP : P c.1
    · rw [if_pos hP, List.filter_cons, if_pos (by simpa using hP), List.filter_nil,
        sortedPositions_append]
    · rw [if_neg hP, List.filter_cons, if_neg (by simpa using hP), List.filter_nil,
        List.append_nil]

theorem map_fst_filter {T : Type} (P : Nat → Bool) (l : List (Nat × List T)) :
    (l.filter (fun b => P b.1)).map Prod.fst = (l.map Prod.fst).filter P := by
  induction l with
  | nil => simp
  | cons b rest ih =>
    by_cases hP : P b.1
    · rw [List.filter_cons, if_pos (by simpa using hP), List.map_cons, List.map_cons,
        List.filter_cons, if_pos (by simpa using hP), ih]
    · rw [List.filter_cons, if_neg (by simpa using hP), List.map_cons,
        List.filter_cons, if_neg (by simpa using hP), ih]

/-- C7: on a scheduler built by a sequence of `schedule` calls,
`drain_before(p)` removes and returns exactly the events with position `< p`
(that is, the events of the window `[0, p)`), in ascending position order and,
within one position, in insertion order; every event with position `>= p` is
retained, and a subsequent `events_in_range` query on the drained scheduler
answers exactly as over the retained calls. -/
theorem scheduler_drain_before_spec {T : Type} (calls : List (Nat × T)) (p : Nat) :
    ((buildScheduler calls).drainBefore p).1 = eventsSpec calls 0 p ∧
    ∀ s e, (((buildScheduler calls).drainBefore p).2).eventsInRange s e =
      eventsSpec (calls.filter (fun c => p ≤ c.1)) s e := by
  constructor
  · show ((buildScheduler calls).events.filter (fun b => b.1 < p)).flatMap
        (fun b => b.2.map (fun e => (b.1, e))) = _
    have hmain := flatMap_filter_buckets calls (fun q => decide (q < p))
      (buildScheduler calls).events (hb_buildScheduler calls)
    rw [hmain, keys_buildScheduler]
    unfold eventsSpec
    congr 1
    apply List.filter_congr
    intro q _
    simp
  · intro s e
    apply eventsInRange_eq_spec
    · show ((buildScheduler calls).events.filter (fun b => ¬ b.1 < p)).map Prod.fst = _
      rw [map_fst_filter (fun q => decide (¬ q < p)), keys_buildScheduler]
      have hflt : calls.filter (fun c => p ≤ c.1) =
          calls.filter (fun c => decide (¬ c.1 < p)) := by
        apply List.filter_congr
        intro c _
        simp [Nat.not_lt]
      rw [hflt, sortedPositions_filter (fun q => decide (¬ q < p)) calls]
    · intro b hbmem
      show b.2 = _
      have hbev : b ∈ (buildScheduler calls).events := List.mem_of_mem_filter hbmem
      have hge : p ≤ b.1 := by
        have := List.of_mem_filter hbmem
        simpa [Nat.not_lt] using this
      rw [hb_buildScheduler calls b hbev]
      congr 1
      rw [List.filter_filter]
      apply List.filter_congr
      intro c _
      by_cases hc : c.1 = b.1
      · simp [hc, hge]
      · simp [hc]

/-! ## SPSC queue (amdusias-core/src/queue.rs)

`SpscQueue<T>` is a fixed-capacity ring buffer with a producer-owned `head`
cursor and a consumer-owned `tail` cursor.  The boxed slice of
`UnsafeCell<MaybeUninit<T>>` slots is embedded as a function
`Nat → Option T` (`none` = uninitialized); the `usize` cursors as unbounded
`Nat` (their wrapping arithmetic is congruent modulo `2 ^ 64`, the capacity
is a power of two dividing `2 ^ 64`, and the cursor distance never exceeds
the capacity, so the embedding is faithful); the bitmask
`head & (capacity - 1)` as `head % capacity`.  The claims here concern the
sequential (single-producer, single-consumer, interleaved) semantics, so the
acquire/release atomic loads and stores collapse to plain reads and writes.
-/

/-- The queue error variants of the amdusias-core error enum used by
`SpscQueue` (`QueueFull`, `QueueEmpty`). -/
inductive QueueError where
  | QueueFull
  | QueueEmpty
deriving DecidableEq

/-- `SpscQueue<T>`. -/
structure SpscQueue (T : Type) where
  buffer : Nat → Option T
  capacity : Nat
  head : Nat
  tail : Nat

/-- `SpscQueue::new(capacity)`: the capacity is rounded up to the next power
of two.  The source asserts `capacity > 0` (a panic on 0); the claims only
exercise positive capacities, for which the assert passes. -/
def SpscQueue.new (T : Type) (capacity : Nat) : SpscQueue T :=
  { buffer := fun _ => none
    capacity := capacity.nextPowerOfTwo
    head := 0
    tail := 0 }

/-- `SpscQueue::push(value)`: full when `head - tail >= capacity`; otherwise
writes the slot at `head % capacity` and then publishes `head + 1`. -/
def SpscQueue.push {T : Type} (q : SpscQueue T) (value : T) :
    Except QueueError Unit × SpscQueue T :=
  if q.head - q.tail ≥ q.capacity then (.error .QueueFull, q)
  else
    (.ok (),
     { q with
        buffer := Function.update q.buffer (q.head % q.capacity) (some value)
        head := q.head + 1 })

/-- `SpscQueue::pop()`: empty when `tail == head`; otherwise reads the slot
at `tail % capacity` and then publishes `tail + 1`.  The `none` slot case
models `assume_init_read` of an uninitialized slot; it is unreachable under
the queue invariant (the slot at `tail` was written by the matching `push`). -/
def SpscQueue.pop {T : Type} (q : SpscQueue T) : Except QueueError T × SpscQueue T :=
  if q.tail = q.head then (.error .QueueEmpty, q)
  else
    match q.buffer (q.tail % q.capacity) with
    | some v => (.ok v, { q with tail := q.tail + 1 })
    | none => (.error .QueueEmpty, q)

/-- The live window of slots, from `tail` (next to pop) up to `head`
(next to push), in pop order. -/
def SpscQueue.window {T : Type} (q : SpscQueue T) : List (Option T) :=
  (List.range (q.head - q.tail)).map (fun k => q.buffer ((q.tail + k) % q.capacity))

/-- Structural invariant of a queue reachable from `new` by interleaved
pushes and pops: cursors ordered, at most `capacity` live items, positive
capacity, and every live slot initialized. -/
def SpscQueue.WF {T : Type} (q : SpscQueue T) : Prop :=
  q.tail ≤ q.head ∧ q.head - q.tail ≤ q.capacity ∧ 0 < q.capacity ∧
    ∀ o ∈ q.window, o.isSome

instance {T : Type} [DecidableEq T] (q : SpscQueue T) : Decidable q.WF := by
  unfold SpscQueue.WF
  infer_instance

/-- One step of the sequential SPSC execution: a producer push or a consumer
pop, with logs of the successfully pushed and popped values. -/
inductive QueueOp (T : Type) where
  | push (v : T)
  | pop

/-- State of a sequential run: the queue plus the success logs. -/
structure QueueRun (T : Type) where
  q : SpscQueue T
  pushed : List T
  popped : List T

def queueStep {T : Type} (st : QueueRun T) : QueueOp T → QueueRun T
  | .push v =>
    match (st.q.push v).1 with
    | .ok _ => { st with q := (st.q.push v).2, pushed := st.pushed ++ [v] }
    | .error _ => { st with q := (st.q.push v).2 }
  | .pop =>
    match (st.q.pop).1 with
    | .ok v => { st with q := (st.q.pop).2, popped := st.popped ++ [v] }
    | .error _ => { st with q := (st.q.pop).2 }

/-- A full sequential run of push/pop operations against one queue created
with `SpscQueue::new(capacity)`. -/
def runQueue {T : Type} (capacity : Nat) (ops : List (QueueOp T)) : QueueRun T :=
  ops.foldl queueStep { q := SpscQueue.new T capacity, pushed := [], popped := [] }

/-! ### SPSC queue lemmas -/

theorem mod_ne_of_lt_of_sub_lt {x y cap : Nat} (h1 : x < y) (h2 : y - x < cap) :
    x % cap ≠ y % cap := by
  intro h
  have hdvd : cap ∣ y - x := (Nat.modEq_iff_dvd' (le_of_lt h1)).1 h
  have hpos : 0 < y - x := by omega
  have := Nat.le_of_dvd hpos hdvd
  omega

theorem SpscQueue.push_ok_window {T : Type} (q : SpscQueue T) (v : T)
    (h : q.head - q.tail < q.capacity) (hle : q.tail ≤ q.head) :
    ((q.push v).2).window = q.window ++ [some v] ∧ (q.push v).1 = .ok () := by
  have hnotfull : ¬ q.head - q.tail ≥ q.capacity := by omega
  refine ⟨?_, by simp [SpscQueue.push, hnotfull]⟩
  simp only [SpscQueue.push, hnotfull, if_neg, not_false_iff]
  unfold SpscQueue.window
  simp only
  have hrange : q.head + 1 - q.tail = (q.head - q.tail) + 1 := by omega
  rw [hrange, List.range_succ, List.map_append]
  congr 1
  · apply List.map_congr_left
    intro k hk
    have hk2 : k < q.head - q.tail := List.mem_range.1 hk
    have hne : (q.tail + k) % q.capacity ≠ q.head % q.capacity :=
      mod_ne_of_lt_of_sub_lt (by omega) (by omega)
    exact Function.update_noteq hne _ _
  · simp only [List.map_cons, List.map_nil]
    have : q.tail + (q.head - q.tail) = q.head := by omega
    rw [this, Function.update_same]

theorem SpscQueue.push_full {T : Type} (q : SpscQueue T) (v : T)
    (h : q.head - q.tail ≥ q.capacity) :
    q.push v = (.error .QueueFull, q) := by
  simp [SpscQueue.push, h]

theorem SpscQueue.pop_empty {T : Type} (q : SpscQueue T) (h : q.tail = q.head) :
    q.pop = (.error .QueueEmpty, q) := by
  simp [SpscQueue.pop, h]

theorem SpscQueue.window_cons {T : Type} (q : SpscQueue T) (hne : q.tail ≠ q.head)
    (hle : q.tail ≤ q.head) :
    q.window = q.buffer (q.tail % q.capacity) ::
      ({ q with tail := q.tail + 1 } : SpscQueue T).window := by
  unfold SpscQueue.window
  simp only
  have hrange : q.head - q.tail = (q.head - (q.tail + 1)) + 1 := by omega
  rw [hrange, List.range_succ_eq_map, List.map_cons, Nat.add_zero, List.map_map]
  congr 1
  apply List.map_congr_left
  intro k _
  simp only [Function.comp_apply]
  have harg : q.tail + Nat.succ k = q.tail + 1 + k := by omega
  rw [harg]

theorem SpscQueue.pop_ok {T : Type} (q : SpscQueue T) (hne : q.tail ≠ q.head) {v : T}
    (hslot : q.buffer (q.tail % q.capacity) = some v) :
    q.pop = (.ok v, { q with tail := q.tail + 1 }) := by
  simp [SpscQueue.pop, hne, hslot]

/-- The run invariant: the queue is well-formed and the successful-push log
splits as the successful-pop log followed by the values still live in the
ring (in pop order). -/
def QueueRun.Good {T : Type} (st : QueueRun T) : Prop :=
  st.q.WF ∧ st.pushed = st.popped ++ st.q.window.reduceOption

theorem queueStep_good {T : Type} {st : QueueRun T} (hg : st.Good) (op : QueueOp T) :
    (queueStep st op).Good := by
  obtain ⟨⟨hle, hcap, hpos, hsome⟩, hlog⟩ := hg
  cases op with
  | push v =>
    by_cases hfull : st.q.head - st.q.tail ≥ st.q.capacity
    · simp only [queueStep, SpscQueue.push_full st.q v hfull]
      exact ⟨⟨hle, hcap, hpos, hsome⟩, hlog⟩
    · have hlt : st.q.head - st.q.tail < st.q.capacity := by omega
      obtain ⟨hwin, hok⟩ := SpscQueue.push_ok_window st.q v hlt hle
      simp only [queueStep, hok]
      have hhead : ((st.q.push v).2).head = st.q.head + 1 := by
        simp [SpscQueue.push, if_neg hfull]
      have htail : ((st.q.push v).2).tail = st.q.tail := by
        simp [SpscQueue.push, if_neg hfull]
      have hcap' : ((st.q.push v).2).capacity = st.q.capacity := by
        simp [SpscQueue.push, if_neg hfull]
      refine ⟨⟨?_, ?_, ?_, ?_⟩, ?_⟩
      · show (st.q.push v).2.tail ≤ (st.q.push v).2.head
        omega
      · show (st.q.push v).2.head - (st.q.push v).2.tail ≤ (st.q.push v).2.capacity
        omega
      · show 0 < (st.q.push v).2.capacity
        omega
      · intro o ho
        have ho2 : o ∈ ((st.q.push v).2).window := ho
        rw [hwin] at ho2
        rcases List.mem_append.1 ho2 with ho3 | ho3
        · exact hsome o ho3
        · simp only [List.mem_singleton] at ho3
          subst ho3
          rfl
      · show st.pushed ++ [v] = st.popped ++ ((st.q.push v).2).window.reduceOption
        rw [hwin, hlog, List.reduceOption_append, List.append_assoc]
        rfl
  | pop =>
    by_cases hempty : st.q.tail = st.q.head
    · simp only [queueStep, SpscQueue.pop_empty st.q hempty]
      exact ⟨⟨hle, hcap, hpos, hsome⟩, hlog⟩
    · have hwin := SpscQueue.window_cons st.q hempty hle
      have hmem : st.q.buffer (st.q.tail % st.q.capacity) ∈ st.q.window := by
        rw [hwin]
        simp
      have hs := hsome _ hmem
      obtain ⟨v, hv⟩ := Option.isSome_iff_exists.1 hs
      simp only [queueStep, SpscQueue.pop_ok st.q hempty hv]
      refine ⟨⟨?_, ?_, ?_, ?_⟩, ?_⟩
      · show st.q.tail + 1 ≤ st.q.head
        omega
      · show st.q.head - (st.q.tail + 1) ≤ st.q.capacity
        omega
      · exact hpos
      · intro o ho
        apply hsome
        rw [hwin]
        exact List.mem_cons_of_mem _ ho
      · show st.pushed = st.popped ++ [v] ++ _
        rw [hlog, hwin, hv, List.append_assoc]
        rfl

theorem runQueue_good {T : Type} (capacity : Nat) (ops : List (QueueOp T)) :
    (runQueue capacity ops).Good := by
  have hinit : (⟨SpscQueue.new T capacity, [], []⟩ : QueueRun T).Good := by
    refine ⟨⟨Nat.le_refl 0, ?_, ?_, ?_⟩, ?_⟩
    · show (0 : Nat) - 0 ≤ capacity.nextPowerOfTwo
      simp
    · show 0 < capacity.nextPowerOfTwo
      obtain ⟨k, hk⟩ := Nat.isPowerOfTwo_nextPowerOfTwo capacity
      rw [hk]
      exact Nat.pos_pow_of_pos k (by omega)
    · intro o ho
      simp [SpscQueue.window, SpscQueue.new] at ho
    · simp [SpscQueue.window, SpscQueue.new]
  unfold runQueue
  induction ops using List.reverseRecOn with
  | nil => exact hinit
  | append_singleton ops op ih =>
    rw [List.foldl_append, List.foldl_cons, List.foldl_nil]
    exact queueStep_good ih op

/-- C4: under the SPSC discipline modelled sequentially, for every sequence
of push and pop operations on one queue the successfully pushed values split
as the successfully popped values (in pop order) followed by the values still
live in the ring buffer, in push order: pops return exactly the pushed values
in order, none lost, duplicated, or reordered, across index wraparound; and
every still-live slot really holds a value. -/
theorem spsc_fifo_order {T : Type} (capacity : Nat) (ops : List (QueueOp T)) :
    (runQueue capacity ops).pushed =
      (runQueue capacity ops).popped ++
        ((runQueue capacity ops).q.window.reduceOption) ∧
    ∀ o ∈ (runQueue capacity ops).q.window, o.isSome := by
  obtain ⟨⟨h1, h2, h3, h4⟩, h5⟩ := runQueue_good capacity ops
  exact ⟨h5, h4⟩

/-- C5: on a well-formed queue, `push` fails (necessarily with `QueueFull`)
exactly when `head - tail == capacity`, and a failing push returns the queue
unchanged (cursors and stored items); `pop` fails (necessarily with
`QueueEmpty`) exactly when `head == tail`, and a failing pop returns the
queue unchanged. -/
theorem spsc_full_empty_spec {T : Type} (q : SpscQueue T) (v : T) (h : q.WF) :
    ((q.push v).1 = Except.error QueueError.QueueFull ↔
        q.head - q.tail = q.capacity) ∧
    (q.head - q.tail = q.capacity → q.push v = (Except.error QueueError.QueueFull, q)) ∧
    ((q.pop).1 = Except.error QueueError.QueueEmpty ↔ q.head = q.tail) ∧
    (q.head = q.tail → q.pop = (Except.error QueueError.QueueEmpty, q)) := by
  obtain ⟨hle, hcap, hpos, hsome⟩ := h
  refine ⟨⟨?_, ?_⟩, ?_, ⟨?_, ?_⟩, ?_⟩
  · intro herr
    by_cases hfull : q.head - q.tail ≥ q.capacity
    · omega
    · obtain ⟨_, hok⟩ := SpscQueue.push_ok_window q v (by omega) hle
      rw [hok] at herr
      cases herr
  · intro hfull
    rw [SpscQueue.push_full q v (le_of_eq hfull.symm)]
  · intro hfull
    exact SpscQueue.push_full q v (le_of_eq hfull.symm)
  · intro herr
    by_cases hempty : q.tail = q.head
    · omega
    · have hwin := SpscQueue.window_cons q hempty hle
      have hmem : q.buffer (q.tail % q.capacity) ∈ q.window := by
        rw [hwin]
        simp
      obtain ⟨w, hw⟩ := Option.isSome_iff_exists.1 (hsome _ hmem)
      rw [SpscQueue.pop_ok q hempty hw] at herr
      cases herr
  · intro heq
    rw [SpscQueue.pop_empty q heq.symm]
  · intro heq
    exact SpscQueue.pop_empty q heq.symm

/-- Witness for C5: a queue of capacity 2 holding two items rejects a third
push with `QueueFull` and is unchanged; a fresh queue rejects `pop` with
`QueueEmpty`. -/
theorem spsc_full_empty_spec_witness :
    ((((⟨fun _ => none, 2, 0, 0⟩ : SpscQueue Nat).push 7).2.push 8).2.push 9
        = (Except.error QueueError.QueueFull,
           (((⟨fun _ => none, 2, 0, 0⟩ : SpscQueue Nat).push 7).2.push 8).2)) ∧
    (⟨fun _ => none, 2, 0, 0⟩ : SpscQueue Nat).pop
        = (Except.error QueueError.QueueEmpty, (⟨fun _ => none, 2, 0, 0⟩ : SpscQueue Nat)) :=
  ⟨(spsc_full_empty_spec (((⟨fun _ => none, 2, 0, 0⟩ : SpscQueue Nat).push 7).2.push 8).2
      9 (by decide)).2.1 (by decide),
   (spsc_full_empty_spec (⟨fun _ => none, 2, 0, 0⟩ : SpscQueue Nat) 0 (by decide)).2.2.2
      (by decide)⟩

/-! ## Audio graph (amdusias-graph)

`NodeId` wraps a slotmap key; it is embedded as a `Nat` drawn from a
monotone counter (`next_key`), which preserves exactly what the code relies
on: freshness and identity within one graph.  The slotmap arena and the
node boxes become an association list of `(key, cached NodeInfo)` — the
boxed `AudioNode` trait object itself is opaque to every claim, only its
cached `info()` is consulted.  `f32` (`sample_rate`, only stored and
returned) is embedded as `Rat`.  `&mut self` methods return
`(result, updated graph)`; an early `return Err(...)` returns the receiver
unchanged, mirroring that the Rust code performs no mutation before it. -/

/-- Decidable equality for `Except` results (used to evaluate concrete
counterexamples and witnesses). -/
instance exceptDecEq {E A : Type} [DecidableEq E] [DecidableEq A] :
    DecidableEq (Except E A) := fun x y =>
  match x, y with
  | .ok a, .ok b => decidable_of_iff (a = b) ⟨fun h => by rw [h], fun h => by injection h⟩
  | .ok _, .error _ => isFalse (fun h => Except.noConfusion h)
  | .error _, .ok _ => isFalse (fun h => Except.noConfusion h)
  | .error e, .error f =>
    decidable_of_iff (e = f) ⟨fun h => by rw [h], fun h => by injection h⟩

/-- The amdusias-graph error enum (the variants the verified operations
produce; the buffer/channel mismatch variants are produced elsewhere). -/
inductive GraphError where
  | NodeNotFound (node : Nat)
  | PortNotFound (node : Nat) (port : Nat) (max : Nat)
  | CycleDetected
  | DuplicateConnection
  | NotCompiled
deriving DecidableEq

/-- `NodeInfo`: cached port shape and latency of a node. -/
structure NodeInfo where
  input_count : Nat
  output_count : Nat
  input_channels : List Nat
  output_channels : List Nat
  latency_samples : Nat
deriving DecidableEq

/-- `NodeInfo::custom(input_channels, output_channels, latency_samples)`. -/
def NodeInfo.custom (input_channels output_channels : List Nat)
    (latency_samples : Nat) : NodeInfo :=
  { input_count := input_channels.length
    output_count := output_channels.length
    input_channels
    output_channels
    latency_samples }

/-- `NodeInfo::mono()`. -/
def NodeInfo.mono : NodeInfo := NodeInfo.custom [1] [1] 0

/-- `NodeInfo::stereo()`. -/
def NodeInfo.stereo : NodeInfo := NodeInfo.custom [2] [2] 0

/-- `Connection`: a directed edge `(source_node, source_port) ->
(dest_node, dest_port)`; equality is exact 4-field match (derived `PartialEq`). -/
structure Connection where
  source_node : Nat
  source_port : Nat
  dest_node : Nat
  dest_port : Nat
deriving DecidableEq

/-- `AudioGraph`. -/
structure AudioGraph where
  nodes : List (Nat × NodeInfo)
  connections : List Connection
  sample_rate : Rat
  buffer_size : Nat
  dirty : Bool
  processing_order : List Nat
  latency_compensation : List (Nat × Nat)
  next_key : Nat
deriving DecidableEq

/-- `self.nodes.get(key)` on the arena, yielding the cached `NodeInfo`. -/
def lookupNode (nodes : List (Nat × NodeInfo)) (key : Nat) : Option NodeInfo :=
  (nodes.find? (fun e => e.1 = key)).map Prod.snd

/-- `AudioGraph::new(sample_rate, buffer_size)`. -/
def AudioGraph.new (sample_rate : Rat) (buffer_size : Nat) : AudioGraph :=
  { nodes := []
    connections := []
    sample_rate
    buffer_size
    dirty := true
    processing_order := []
    latency_compensation := []
    next_key := 0 }

/-- `AudioGraph::add_node(node)`: caches the node's `info()`, stores it in
the arena under a fresh key, marks dirty, and returns the new `NodeId`. -/
def AudioGraph.add_node (g : AudioGraph) (info : NodeInfo) : Nat × AudioGraph :=
  (g.next_key,
   { g with
      nodes := g.nodes ++ [(g.next_key, info)]
      dirty := true
      next_key := g.next_key + 1 })

/-- `AudioGraph::remove_node(id)`: fails with `NodeNotFound` if the arena has
no such key; otherwise removes that entry (`SlotMap::remove`), retains only
the connections not referencing the node as source or destination, and marks
dirty. -/
def AudioGraph.remove_node (g : AudioGraph) (node_id : Nat) :
    Except GraphError Unit × AudioGraph :=
  match g.nodes.find? (fun e => e.1 = node_id) with
  | none => (.error (.NodeNotFound node_id), g)
  | some _ =>
    (.ok (),
     { g with
        nodes := g.nodes.eraseP (fun e => e.1 = node_id)
        connections := g.connections.filter
          (fun c => ¬ c.source_node = node_id ∧ ¬ c.dest_node = node_id)
        dirty := true })

/-- The successors of `node` over the edge list: the `dest_node` of every
connection whose `source_node` is `node`, in list order (used both by the
cycle search and as the compiled adjacency list). -/
def succList (connections : List Connection) (node : Nat) : List Nat :=
  (connections.filter (fun c => c.source_node = node)).map (fun c => c.dest_node)

/-- The work loop of `AudioGraph::would_create_cycle`: depth-first search
from the stack for `source` over `connections`, with a visited list for the
`HashSet`.  The Rust loop pops and pushes at the back of a `Vec`; here the
stack top is the list head — the same LIFO discipline.  The loop always
terminates because a node is expanded at most once; the explicit fuel (an
embedding artifact making the definition structurally recursive) is chosen
in `would_create_cycle` large enough never to run out, which
`would_create_cycle_iff_reach` proves. -/
def cycleSearch (connections : List Connection) (source : Nat) :
    Nat → List Nat → List Nat → Bool
  | _, [], _ => false
  | 0, _ :: _, _ => false
  | fuel + 1, node :: stack, visited =>
    if node = source then true
    else if node ∈ visited then cycleSearch connections source fuel stack visited
    else cycleSearch connections source fuel (succList connections node ++ stack)
      (node :: visited)

/-- `AudioGraph::would_create_cycle(source, dest)`: true iff `source` is
reachable from `dest` over the existing edges (so adding
`source -> dest` would close a loop). -/
def AudioGraph.would_create_cycle (g : AudioGraph) (source dest : Nat) : Bool :=
  cycleSearch g.connections source (2 * g.connections.length + 2) [dest] []

/-- `AudioGraph::connect(source_node, source_port, dest_node, dest_port)`.
(The source's local `connection` binding is inlined.) -/
def AudioGraph.connect (g : AudioGraph)
    (source_node source_port dest_node dest_port : Nat) :
    Except GraphError Unit × AudioGraph :=
  match lookupNode g.nodes source_node with
  | none => (.error (.NodeNotFound source_node), g)
  | some source_info =>
    if source_port ≥ source_info.output_count then
      (.error (.PortNotFound source_node source_port (source_info.output_count - 1)), g)
    else
      match lookupNode g.nodes dest_node with
      | none => (.error (.NodeNotFound dest_node), g)
      | some dest_info =>
        if dest_port ≥ dest_info.input_count then
          (.error (.PortNotFound dest_node dest_port (dest_info.input_count - 1)), g)
        else if (⟨source_node, source_port, dest_node, dest_port⟩ : Connection)
            ∈ g.connections then
          (.error .DuplicateConnection, g)
        else if g.would_create_cycle source_node dest_node then
          (.error .CycleDetected, g)
        else
          (.ok (),
           { g with
              connections := g.connections
                ++ [⟨source_node, source_port, dest_node, dest_port⟩]
              dirty := true })

/-- `AudioGraph::disconnect(...)`: finds the position of the exact matching
connection (`NodeNotFound(source)` if absent), removes it, marks dirty. -/
def AudioGraph.disconnect (g : AudioGraph)
    (source_node source_port dest_node dest_port : Nat) :
    Except GraphError Unit × AudioGraph :=
  let connection : Connection := ⟨source_node, source_port, dest_node, dest_port⟩
  match g.connections.findIdx? (fun c => c = connection) with
  | none => (.error (.NodeNotFound source_node), g)
  | some idx =>
    (.ok (), { g with connections := g.connections.eraseIdx idx, dirty := true })

/-- HashMap read (`in_degree[&k]`): the value stored under `k`, 0 if absent. -/
def alGet (l : List (Nat × Nat)) (k : Nat) : Nat :=
  ((l.find? (fun e => e.1 = k)).map Prod.snd).getD 0

/-- HashMap write through `get_mut(&k)`: updates the existing entry for `k`
only (a missing key is an `unwrap` panic in the source, modelled as a no-op,
unreachable for well-formed graphs). -/
def alSet (l : List (Nat × Nat)) (k x : Nat) : List (Nat × Nat) :=
  l.map (fun e => if e.1 = k then (k, x) else e)

/-- One decrement step of Kahn's algorithm on neighbor `v`:
`*in_degree.get_mut(&v) -= 1; if zero, push v`.  The in-degree map holds the
exact in-edge counts, so a decremented entry has old degree `>= 1` and the
push condition "new degree is 0" is "old degree is 1". -/
def kahnBump (st : List (Nat × Nat) × List Nat) (v : Nat) :
    List (Nat × Nat) × List Nat :=
  (alSet st.1 v (alGet st.1 v - 1), if alGet st.1 v = 1 then v :: st.2 else st.2)

/-- The Kahn work loop of `AudioGraph::compile`: pop a ready node, append it
to the order, decrement its successors' in-degrees, enqueue the newly ready
ones.  The Rust `Vec` queue pops/pushes at the back; the queue top is the
list head here, an instance of the tie-breaking freedom the spec leaves
open.  Fuel (an embedding artifact) is the loop's exact decreasing measure,
total remaining in-degree plus queue length, so it never runs out. -/
def kahnLoop (connections : List Connection) :
    Nat → List (Nat × Nat) → List Nat → List Nat → List Nat
  | _, _, [], order => order
  | 0, _, _ :: _, order => order
  | fuel + 1, inDeg, node :: queue, order =>
    let st := (succList connections node).foldl kahnBump (inDeg, queue)
    kahnLoop connections fuel st.1 st.2 (order ++ [node])

/-- The initial in-degree map of `compile`: every arena key, mapped to its
number of in-edges.  (The source seeds a `HashMap` with zeros and bumps it
once per connection; the HashMap iteration order is unspecified, the arena
order is used here — the claims are independent of it.) -/
def initInDegree (g : AudioGraph) : List (Nat × Nat) :=
  g.nodes.map
    (fun e => (e.1, (g.connections.filter (fun c => c.dest_node = e.1)).length))

/-- Total remaining in-degree: the fuel component of the Kahn measure. -/
def totalDeg (inDeg : List (Nat × Nat)) : Nat := (inDeg.map Prod.snd).sum

/-- `AudioGraph::compile()`: Kahn's algorithm; fails with `CycleDetected`
(leaving the graph untouched) when the produced order misses a node;
otherwise stores the order, rebuilds the all-zero latency table, and clears
the dirty flag. -/
def AudioGraph.compile (g : AudioGraph) : Except GraphError Unit × AudioGraph :=
  let inDeg := initInDegree g
  let queue := (inDeg.filter (fun e => e.2 = 0)).map Prod.fst
  let order := kahnLoop g.connections (totalDeg inDeg + queue.length) inDeg queue []
  if order.length ≠ g.nodes.length then (.error .CycleDetected, g)
  else
    (.ok (),
     { g with
        processing_order := order
        latency_compensation := g.nodes.map (fun e => (e.1, 0))
        dirty := false })

/-- `AudioGraph::is_dirty()`. -/
def AudioGraph.isDirty (g : AudioGraph) : Bool := g.dirty

/-- `GraphProcessor`: the immutable compiled snapshot.  (Its private scratch
buffer map, created empty and unobservable through the accessors the claims
mention, is omitted.) -/
structure GraphProcessor where
  processing_order : List Nat
  connections : List Connection
  buffer_size : Nat
deriving DecidableEq

/-- `AudioGraph::create_processor()`: fails with `NotCompiled` while dirty;
otherwise clones the order, connections, and buffer size into a fresh
snapshot.  The method takes `&self`: it cannot modify the graph, so no
updated graph is returned. -/
def AudioGraph.create_processor (g : AudioGraph) : Except GraphError GraphProcessor :=
  if g.dirty then .error .NotCompiled
  else
    .ok
      { processing_order := g.processing_order
        connections := g.connections
        buffer_size := g.buffer_size }

/-- `GraphProcessor::inputs_for(node)`. -/
def GraphProcessor.inputs_for (p : GraphProcessor) (node : Nat) : List Connection :=
  p.connections.filter (fun c => c.dest_node = node)

/-- `GraphProcessor::outputs_from(node)`. -/
def GraphProcessor.outputs_from (p : GraphProcessor) (node : Nat) : List Connection :=
  p.connections.filter (fun c => c.source_node = node)

/-- A graph-mutating (or compiling) API call, for stating frame properties
over arbitrary later edits. -/
inductive GraphOp where
  | addNode (info : NodeInfo)
  | removeNode (id : Nat)
  | connect (s sp d dp : Nat)
  | disconnect (s sp d dp : Nat)
  | compile

def applyGraphOp (g : AudioGraph) : GraphOp → AudioGraph
  | .addNode info => (g.add_node info).2
  | .removeNode id => (g.remove_node id).2
  | .connect s sp d dp => (g.connect s sp d dp).2
  | .disconnect s sp d dp => (g.disconnect s sp d dp).2
  | .compile => (g.compile).2

def applyGraphOps (g : AudioGraph) (ops : List GraphOp) : AudioGraph :=
  ops.foldl applyGraphOp g

/-- The edge relation of the connection list. -/
def EdgeRel (connections : List Connection) (a b : Nat) : Prop :=
  ∃ c ∈ connections, c.source_node = a ∧ c.dest_node = b

/-- Reachability (zero or more edges) over the connection list. -/
def Reach (connections : List Connection) : Nat → Nat → Prop :=
  Relation.ReflTransGen (EdgeRel connections)

/-- The node/edge set is a DAG: no nonempty directed cycle. -/
def Acyclic (connections : List Connection) : Prop :=
  ∀ n, ¬ Relation.TransGen (EdgeRel connections) n n

/-- Well-formedness of an API-maintained graph: arena keys are distinct and
every connection endpoint is an existing node. -/
def AudioGraph.NodesWF (g : AudioGraph) : Prop :=
  (g.nodes.map Prod.fst).Nodup ∧
    ∀ c ∈ g.connections,
      c.source_node ∈ g.nodes.map Prod.fst ∧ c.dest_node ∈ g.nodes.map Prod.fst

/-! ### Graph lemmas: remove_node, disconnect, dirty flag, processor -/

/-- A shared concrete graph: three mono nodes 0, 1, 2 with connections
0 -> 1 and 1 -> 2 (used to instantiate witnesses). -/
def wg3 : AudioGraph :=
  ((((((AudioGraph.new 48000 512).add_node NodeInfo.mono).2.add_node
      NodeInfo.mono).2.add_node NodeInfo.mono).2.connect 0 0 1 0).2.connect 1 0 2 0).2

theorem eraseP_key_eq_filter {id : Nat} :
    ∀ (nodes : List (Nat × NodeInfo)), (nodes.map Prod.fst).Nodup →
    nodes.eraseP (fun e => e.1 = id) = nodes.filter (fun e => ¬ e.1 = id) := by
  intro nodes
  induction nodes with
  | nil => simp
  | cons e rest ih =>
    intro hn
    simp only [List.map_cons, List.nodup_cons] at hn
    by_cases he : e.1 = id
    · rw [List.eraseP_cons_of_pos (by simpa using he), List.filter_cons,
        if_neg (by simpa using he)]
      symm
      rw [List.filter_eq_self]
      intro x hx
      simp only [decide_eq_true_eq]
      intro hc
      rw [← he] at hc
      exact hn.1 (hc ▸ List.mem_map_of_mem Prod.fst hx)
    · rw [List.eraseP_cons_of_neg (by simpa using he), List.filter_cons,
        if_pos (by simpa using he), ih hn.2]

/-- C8: `remove_node(id)` fails with `NodeNotFound` when `id` is absent,
leaving the graph unchanged; otherwise it deletes exactly that node and
exactly the connections referencing `id` as source or destination (all other
nodes and connections are kept, in order), and marks the graph dirty. -/
theorem remove_node_spec (g : AudioGraph) (id : Nat)
    (hn : (g.nodes.map Prod.fst).Nodup) :
    (id ∉ g.nodes.map Prod.fst →
      g.remove_node id = (Except.error (GraphError.NodeNotFound id), g)) ∧
    (id ∈ g.nodes.map Prod.fst →
      g.remove_node id =
        (Except.ok (),
         { g with
            nodes := g.nodes.filter (fun e => ¬ e.1 = id)
            connections := g.connections.filter
              (fun c => ¬ c.source_node = id ∧ ¬ c.dest_node = id)
            dirty := true })) := by
  constructor
  · intro habs
    have hfind : g.nodes.find? (fun e => e.1 = id) = none := by
      rw [List.find?_eq_none]
      intro e he
      simp only [decide_eq_true_eq]
      intro hc
      exact habs (hc ▸ List.mem_map_of_mem Prod.fst he)
    unfold AudioGraph.remove_node
    rw [hfind]
  · intro hmem
    obtain ⟨e, he, hkey⟩ := List.mem_map.1 hmem
    have hfind : (g.nodes.find? (fun x => x.1 = id)).isSome := by
      rw [List.find?_isSome]
      exact ⟨e, he, by simpa using hkey⟩
    obtain ⟨f, hf⟩ := Option.isSome_iff_exists.1 hfind
    unfold AudioGraph.remove_node
    rw [hf, eraseP_key_eq_filter g.nodes hn]

theorem findIdx?_eraseIdx_erase {A : Type} [DecidableEq A] :
    ∀ (l : List A) (a : A) (i : Nat),
    (a ∉ l → l.findIdx? (fun x => x = a) i = none) ∧
    (a ∈ l → ∃ j, l.findIdx? (fun x => x = a) i = some (i + j) ∧
      l.eraseIdx j = l.erase a) := by
  intro l
  induction l with
  | nil => intro a i; simp
  | cons x rest ih =>
    intro a i
    constructor
    · intro habs
      simp only [List.mem_cons] at habs
      push_neg at habs
      have hxa : ¬ x = a := fun h => habs.1 h.symm
      rw [List.findIdx?_cons, if_neg (by simpa using hxa)]
      exact (ih a (i + 1)).1 habs.2
    · intro hmem
      by_cases hx : x = a
      · subst hx
        refine ⟨0, ?_, ?_⟩
        · rw [List.findIdx?_cons, if_pos (by simp)]
          simp
        · rw [List.eraseIdx_cons_zero, List.erase_cons_head]
      · have hmem2 : a ∈ rest := by
          rcases List.mem_cons.1 hmem with rfl | h
          · exact absurd rfl hx
          · exact h
        obtain ⟨j, hj, hej⟩ := (ih a (i + 1)).2 hmem2
        refine ⟨j + 1, ?_, ?_⟩
        · rw [List.findIdx?_cons, if_neg (by simpa using hx), hj]
          congr 1
          omega
        · rw [List.eraseIdx_cons_succ, hej, List.erase_cons_tail]
          simpa using hx

/-- C10: `disconnect(src, src_port, dst, dst_port)` succeeds exactly when the
exact 4-tuple connection is present, removing (the first occurrence of) that
connection only and marking the graph dirty; when absent it fails with
`NodeNotFound(src)` — whether or not the endpoint nodes exist — leaving the
graph, its connection list, and its dirty flag unchanged. -/
theorem disconnect_spec (g : AudioGraph) (s sp d dp : Nat) :
    ((⟨s, sp, d, dp⟩ : Connection) ∉ g.connections →
      g.disconnect s sp d dp = (Except.error (GraphError.NodeNotFound s), g)) ∧
    ((⟨s, sp, d, dp⟩ : Connection) ∈ g.connections →
      g.disconnect s sp d dp =
        (Except.ok (),
         { g with
            connections := g.connections.erase ⟨s, sp, d, dp⟩
            dirty := true })) := by
  constructor
  · intro habs
    simp only [AudioGraph.disconnect]
    rw [(findIdx?_eraseIdx_erase g.connections ⟨s, sp, d, dp⟩ 0).1 habs]
  · intro hmem
    obtain ⟨j, hj, hej⟩ :=
      (findIdx?_eraseIdx_erase g.connections ⟨s, sp, d, dp⟩ 0).2 hmem
    simp only [AudioGraph.disconnect]
    rw [hj, Nat.zero_add]
    show (Except.ok (),
        ({ g with connections := g.connections.eraseIdx j, dirty := true } : AudioGraph)) = _
    rw [hej]

/-- Witness for C8: removing node 1 from the 0 -> 1 -> 2 chain deletes that
node and both connections touching it, keeping nodes 0 and 2. -/
theorem remove_node_spec_witness :
    (wg3.remove_node 1).2.nodes.map Prod.fst = [0, 2] ∧
    (wg3.remove_node 1).2.connections = [] ∧
    (wg3.remove_node 1).2.dirty = true := by
  have h := (remove_node_spec wg3 1 (by decide)).2 (by decide)
  rw [h]
  refine ⟨by decide, by decide, rfl⟩

/-- Witness for C10: disconnecting the present edge 0 -> 1 removes exactly
it; disconnecting it again fails with `NodeNotFound(0)` and changes nothing. -/
theorem disconnect_spec_witness :
    (wg3.disconnect 0 0 1 0).2.connections = [⟨1, 0, 2, 0⟩] ∧
    ((wg3.disconnect 0 0 1 0).2.disconnect 0 0 1 0) =
      (Except.error (GraphError.NodeNotFound 0), (wg3.disconnect 0 0 1 0).2) := by
  have h1 := (disconnect_spec wg3 0 0 1 0).2 (by decide)
  constructor
  · rw [h1]
    decide
  · exact (disconnect_spec (wg3.disconnect 0 0 1 0).2 0 0 1 0).1 (by
      rw [h1]
      decide)

/-- Full case characterization of `connect`, mirroring the source's check
order: source node, source port, dest node, dest port, duplicate, cycle,
success.  Shared by the claims about `connect` and the dirty flag. -/
theorem connect_cases (g : AudioGraph) (s sp d dp : Nat) :
    (lookupNode g.nodes s = none ∧
      g.connect s sp d dp = (Except.error (GraphError.NodeNotFound s), g)) ∨
    (∃ si, lookupNode g.nodes s = some si ∧ sp ≥ si.output_count ∧
      g.connect s sp d dp =
        (Except.error (GraphError.PortNotFound s sp (si.output_count - 1)), g)) ∨
    (∃ si, lookupNode g.nodes s = some si ∧ ¬ sp ≥ si.output_count ∧
      lookupNode g.nodes d = none ∧
      g.connect s sp d dp = (Except.error (GraphError.NodeNotFound d), g)) ∨
    (∃ si di, lookupNode g.nodes s = some si ∧ ¬ sp ≥ si.output_count ∧
      lookupNode g.nodes d = some di ∧ dp ≥ di.input_count ∧
      g.connect s sp d dp =
        (Except.error (GraphError.PortNotFound d dp (di.input_count - 1)), g)) ∨
    (∃ si di, lookupNode g.nodes s = some si ∧ ¬ sp ≥ si.output_count ∧
      lookupNode g.nodes d = some di ∧ ¬ dp ≥ di.input_count ∧
      (⟨s, sp, d, dp⟩ : Connection) ∈ g.connections ∧
      g.connect s sp d dp = (Except.error GraphError.DuplicateConnection, g)) ∨
    (∃ si di, lookupNode g.nodes s = some si ∧ ¬ sp ≥ si.output_count ∧
      lookupNode g.nodes d = some di ∧ ¬ dp ≥ di.input_count ∧
      (⟨s, sp, d, dp⟩ : Connection) ∉ g.connections ∧
      g.would_create_cycle s d = true ∧
      g.connect s sp d dp = (Except.error GraphError.CycleDetected, g)) ∨
    (∃ si di, lookupNode g.nodes s = some si ∧ ¬ sp ≥ si.output_count ∧
      lookupNode g.nodes d = some di ∧ ¬ dp ≥ di.input_count ∧
      (⟨s, sp, d, dp⟩ : Connection) ∉ g.connections ∧
      g.would_create_cycle s d = false ∧
      g.connect s sp d dp =
        (Except.ok (),
         { g with connections := g.connections ++ [⟨s, sp, d, dp⟩], dirty := true })) := by
  have hmain : ∀ r : Except GraphError Unit × AudioGraph, g.connect s sp d dp = r →
      (lookupNode g.nodes s = none ∧ r = (Except.error (GraphError.NodeNotFound s), g)) ∨
      (∃ si, lookupNode g.nodes s = some si ∧ sp ≥ si.output_count ∧
        r = (Except.error (GraphError.PortNotFound s sp (si.output_count - 1)), g)) ∨
      (∃ si, lookupNode g.nodes s = some si ∧ ¬ sp ≥ si.output_count ∧
        lookupNode g.nodes d = none ∧
        r = (Except.error (GraphError.NodeNotFound d), g)) ∨
      (∃ si di, lookupNode g.nodes s = some si ∧ ¬ sp ≥ si.output_count ∧
        lookupNode g.nodes d = some di ∧ dp ≥ di.input_count ∧
        r = (Except.error (GraphError.PortNotFound d dp (di.input_count - 1)), g)) ∨
      (∃ si di, lookupNode g.nodes s = some si ∧ ¬ sp ≥ si.output_count ∧
        lookupNode g.nodes d = some di ∧ ¬ dp ≥ di.input_count ∧
        (⟨s, sp, d, dp⟩ : Connection) ∈ g.connections ∧
        r = (Except.error GraphError.DuplicateConnection, g)) ∨
      (∃ si di, lookupNode g.nodes s = some si ∧ ¬ sp ≥ si.output_count ∧
        lookupNode g.nodes d = some di ∧ ¬ dp ≥ di.input_count ∧
        (⟨s, sp, d, dp⟩ : Connection) ∉ g.connections ∧
        g.would_create_cycle s d = true ∧
        r = (Except.error GraphError.CycleDetected, g)) ∨
      (∃ si di, lookupNode g.nodes s = some si ∧ ¬ sp ≥ si.output_count ∧
        lookupNode g.nodes d = some di ∧ ¬ dp ≥ di.input_count ∧
        (⟨s, sp, d, dp⟩ : Connection) ∉ g.connections ∧
        g.would_create_cycle s d = false ∧
        r = (Except.ok (),
          { g with connections := g.connections ++ [⟨s, sp, d, dp⟩], dirty := true })) := by
    intro r hr
    unfold AudioGraph.connect at hr
    split at hr
    · exact Or.inl ⟨by assumption, hr.symm⟩
    · rename_i si hs
      split at hr
      · rename_i hp1
        exact Or.inr (Or.inl ⟨si, hs, hp1, hr.symm⟩)
      · rename_i hp1
        split at hr
        · rename_i hd
          exact Or.inr (Or.inr (Or.inl ⟨si, hs, hp1, hd, hr.symm⟩))
        · rename_i di hd
          split at hr
          · rename_i hp2
            exact Or.inr (Or.inr (Or.inr (Or.inl ⟨si, di, hs, hp1, hd, hp2, hr.symm⟩)))
          · rename_i hp2
            split at hr
            · rename_i hdup
              exact Or.inr (Or.inr (Or.inr (Or.inr (Or.inl
                ⟨si, di, hs, hp1, hd, hp2, hdup, hr.symm⟩))))
            · rename_i hdup
              split at hr
              · rename_i hcyc
                exact Or.inr (Or.inr (Or.inr (Or.inr (Or.inr (Or.inl
                  ⟨si, di, hs, hp1, hd, hp2, hdup, hcyc, hr.symm⟩)))))
              · rename_i hcyc
                exact Or.inr (Or.inr (Or.inr (Or.inr (Or.inr (Or.inr
                  ⟨si, di, hs, hp1, hd, hp2, hdup, by simpa using hcyc, hr.symm⟩)))))
  exact hmain (g.connect s sp d dp) rfl

/-- C3 (amended): a new graph is dirty; `add_node` and every successful
`remove_node`/`connect`/`disconnect` force the graph dirty; `compile` clears
the dirty flag on success and leaves it unchanged (so a dirty graph stays
dirty) on cycle detection; `create_processor` fails — necessarily with
`NotCompiled` — exactly while the graph is dirty and succeeds exactly while
it is clean. -/
theorem dirty_state_machine :
    (∀ (sr : Rat) (bs : Nat), (AudioGraph.new sr bs).isDirty = true) ∧
    (∀ (g : AudioGraph) (info : NodeInfo), ((g.add_node info).2).isDirty = true) ∧
    (∀ (g : AudioGraph) (id : Nat), (g.remove_node id).1 = Except.ok () →
      ((g.remove_node id).2).isDirty = true) ∧
    (∀ (g : AudioGraph) (s sp d dp : Nat), (g.connect s sp d dp).1 = Except.ok () →
      ((g.connect s sp d dp).2).isDirty = true) ∧
    (∀ (g : AudioGraph) (s sp d dp : Nat), (g.disconnect s sp d dp).1 = Except.ok () →
      ((g.disconnect s sp d dp).2).isDirty = true) ∧
    (∀ g : AudioGraph, (g.compile).1 = Except.ok () → ((g.compile).2).isDirty = false) ∧
    (∀ g : AudioGraph, (∀ u, (g.compile).1 ≠ Except.ok u) →
      ((g.compile).2).isDirty = g.isDirty) ∧
    (∀ g : AudioGraph,
      (g.create_processor = Except.error GraphError.NotCompiled ↔ g.isDirty = true) ∧
      ((∃ p, g.create_processor = Except.ok p) ↔ g.isDirty = false)) := by
  refine ⟨fun sr bs => rfl, fun g info => rfl, ?_, ?_, ?_, ?_, ?_, ?_⟩
  · intro g id hok
    unfold AudioGraph.remove_node at hok ⊢
    cases hfind : g.nodes.find? (fun e => e.1 = id) with
    | none =>
      rw [hfind] at hok
      simp at hok
    | some e => rfl
  · intro g s sp d dp hok
    rcases connect_cases g s sp d dp with
      ⟨_, hc⟩ | ⟨si, _, _, hc⟩ | ⟨si, _, _, _, hc⟩ | ⟨si, di, _, _, _, _, hc⟩ |
      ⟨si, di, _, _, _, _, _, hc⟩ | ⟨si, di, _, _, _, _, _, _, hc⟩ |
      ⟨si, di, _, _, _, _, _, _, hc⟩ <;>
      rw [hc] at hok ⊢ <;>
      first
        | rfl
        | simp at hok
  · intro g s sp d dp hok
    simp only [AudioGraph.disconnect] at hok ⊢
    cases hfind : g.connections.findIdx?
        (fun c => c = (⟨s, sp, d, dp⟩ : Connection)) 0 with
    | none =>
      rw [hfind] at hok
      simp at hok
    | some idx => rfl
  · intro g hok
    simp only [AudioGraph.compile] at hok ⊢
    by_cases hlen : (kahnLoop g.connections
        (totalDeg (initInDegree g) +
          (((initInDegree g).filter (fun e => e.2 = 0)).map Prod.fst).length)
        (initInDegree g)
        (((initInDegree g).filter (fun e => e.2 = 0)).map Prod.fst) []).length
        ≠ g.nodes.length
    · rw [if_pos hlen] at hok
      simp at hok
    · rw [if_neg hlen] at hok ⊢
      rfl
  · intro g herr
    simp only [AudioGraph.compile] at herr ⊢
    by_cases hlen : (kahnLoop g.connections
        (totalDeg (initInDegree g) +
          (((initInDegree g).filter (fun e => e.2 = 0)).map Prod.fst).length)
        (initInDegree g)
        (((initInDegree g).filter (fun e => e.2 = 0)).map Prod.fst) []).length
        ≠ g.nodes.length
    · rw [if_pos hlen]
    · rw [if_neg hlen] at herr
      exact absurd rfl (herr ())
  · intro g
    unfold AudioGraph.create_processor AudioGraph.isDirty
    cases hd : g.dirty with
    | true =>
      refine ⟨⟨fun _ => rfl, fun _ => by rw [if_pos rfl]⟩, ?_, ?_⟩
      · rintro ⟨p, hp⟩
        rw [if_pos rfl] at hp
        cases hp
      · intro hfalse
        cases hfalse
    | false =>
      refine ⟨⟨?_, ?_⟩, ?_, fun _ =>
        ⟨{ processing_order := g.processing_order, connections := g.connections,
           buffer_size := g.buffer_size }, ?_⟩⟩
      · intro hp
        rw [if_neg (by simp)] at hp
        cases hp
      · intro hfalse
        cases hfalse
      · intro _
        rfl
      · rw [if_neg (by simp)]

/-- Witness for C3: a successful `remove_node` dirties the chain graph, and
a successful `compile` clears its dirty flag. -/
theorem dirty_state_machine_witness :
    ((wg3.remove_node 2).2).isDirty = true ∧ ((wg3.compile).2).isDirty = false := by
  have h := dirty_state_machine
  exact ⟨h.2.2.1 wg3 2 (by decide), h.2.2.2.2.2.1 wg3 (by decide)⟩

/-- Counterexample to C3 as stated: a failing `connect` call (absent nodes)
on a clean (just compiled, empty) graph leaves the graph clean, so not every
call to `connect` forces the graph dirty — only successful ones do. -/
theorem dirty_forced_counterexample :
    ((((AudioGraph.new 48000 512).compile).2.connect 0 0 1 0).1
        = Except.error (GraphError.NodeNotFound 0)) ∧
    ((((AudioGraph.new 48000 512).compile).2.connect 0 0 1 0).2).isDirty = false :=
  ⟨by decide, by decide⟩

/-- C9: a `GraphProcessor` returned by `create_processor()` holds its own
copies of the processing order, connection list, and buffer size of the
creating graph, taken at creation time, and its accessors (including the
`inputs_for`/`outputs_from` views) are fully determined by those copies; in
this pure embedding the snapshot is a value with no reference back to the
graph, so no later graph operation can change it. -/
theorem graph_processor_snapshot (g : AudioGraph) (p : GraphProcessor)
    (h : g.create_processor = Except.ok p) :
    p.processing_order = g.processing_order ∧
    p.connections = g.connections ∧
    p.buffer_size = g.buffer_size ∧
    (∀ node, p.inputs_for node =
      g.connections.filter (fun c => c.dest_node = node)) ∧
    (∀ node, p.outputs_from node =
      g.connections.filter (fun c => c.source_node = node)) := by
  unfold AudioGraph.create_processor at h
  by_cases hd : g.dirty
  · rw [if_pos hd] at h
    cases h
  · rw [if_neg hd] at h
    injection h with h
    subst h
    exact ⟨rfl, rfl, rfl, fun node => rfl, fun node => rfl⟩

/-- Witness for C9: the processor snapshot of the compiled chain graph holds
the creation-time order, connections, and buffer size. -/
theorem graph_processor_snapshot_witness :
    (⟨[0, 1, 2], [⟨0, 0, 1, 0⟩, ⟨1, 0, 2, 0⟩], 512⟩ : GraphProcessor).processing_order
      = ((wg3.compile).2).processing_order :=
  (graph_processor_snapshot (wg3.compile).2
    ⟨[0, 1, 2], [⟨0, 0, 1, 0⟩, ⟨1, 0, 2, 0⟩], 512⟩ (by decide)).1

/-! ### Cycle search correctness (C2) -/

theorem mem_succList {connections : List Connection} {a b : Nat} :
    b ∈ succList connections a ↔ EdgeRel connections a b := by
  unfold succList EdgeRel
  constructor
  · intro h
    obtain ⟨c, hc, hcb⟩ := List.mem_map.1 h
    obtain ⟨hcm, hcs⟩ := List.mem_filter.1 hc
    exact ⟨c, hcm, by simpa using hcs, hcb⟩
  · rintro ⟨c, hcm, hcs, hcd⟩
    exact List.mem_map.2 ⟨c, List.mem_filter.2 ⟨hcm, by simpa using hcs⟩, hcd⟩

theorem cycleSearch_sound {connections : List Connection} {source dest : Nat} :
    ∀ (fuel : Nat) (stack visited : List Nat),
    (∀ n ∈ stack, Reach connections dest n) →
    cycleSearch connections source fuel stack visited = true →
    Reach connections dest source := by
  intro fuel
  induction fuel with
  | zero =>
    intro stack visited hstack h
    cases stack with
    | nil => cases h
    | cons n rest => cases h
  | succ fuel ih =>
    intro stack visited hstack h
    cases stack with
    | nil => cases h
    | cons node rest =>
      rw [cycleSearch] at h
      by_cases hsrc : node = source
      · exact hsrc ▸ hstack node (by simp)
      · rw [if_neg hsrc] at h
        by_cases hvis : node ∈ visited
        · rw [if_pos hvis] at h
          exact ih rest visited (fun n hn => hstack n (by simp [hn])) h
        · rw [if_neg hvis] at h
          refine ih _ _ ?_ h
          intro n hn
          rcases List.mem_append.1 hn with hn | hn
          · exact Relation.ReflTransGen.tail (hstack node (by simp))
              (mem_succList.1 hn)
          · exact hstack n (by simp [hn])

theorem reach_escape {connections : List Connection} {source : Nat}
    (visited stack : List Nat)
    (hclosed : ∀ v ∈ visited, ∀ y, EdgeRel connections v y →
      y ∈ visited ∨ y ∈ stack)
    (hsrc : source ∉ visited) :
    ∀ x, x ∈ visited → Reach connections x source →
      ∃ z ∈ stack, Reach connections z source := by
  intro x hx hreach
  induction hreach using Relation.ReflTransGen.head_induction_on with
  | refl => exact absurd hx hsrc
  | head hstep htail ih =>
    rename_i a c
    rcases hclosed a hx c hstep with hc | hc
    · exact ih hc
    · exact ⟨c, hc, htail⟩

/-- Weight of an unexpanded node in the cycle-search termination measure:
one for its own expansion plus one per successor it will push. -/
def succWeight (connections : List Connection) (u : Nat) : Nat :=
  1 + (succList connections u).length

/-- The cycle-search measure: total weight of the not-yet-visited universe. -/
def unvisitedWeight (connections : List Connection) (uni visited : List Nat) : Nat :=
  ((uni.filter (fun u => ¬ u ∈ visited)).map (succWeight connections)).sum

theorem unvisitedWeight_insert {connections : List Connection} {visited : List Nat}
    {n : Nat} :
    ∀ {uni : List Nat}, uni.Nodup → n ∈ uni → n ∉ visited →
    unvisitedWeight connections uni (n :: visited) + succWeight connections n =
      unvisitedWeight connections uni visited := by
  intro uni
  induction uni with
  | nil => intro _ h; cases h
  | cons u rest ih =>
    intro hnd hmem hnv
    rcases List.nodup_cons.1 hnd with ⟨hu, hrest⟩
    unfold unvisitedWeight at *
    rcases List.mem_cons.1 hmem with rfl | hmem2
    · rw [List.filter_cons, List.filter_cons, if_neg (by simp), if_pos (by simpa using hnv)]
      have hcong : rest.filter (fun x => ¬ x ∈ n :: visited) =
          rest.filter (fun x => ¬ x ∈ visited) := by
        apply List.filter_congr
        intro x hx
        have hxu : x ≠ n := fun hc => hu (hc ▸ hx)
        simp [List.mem_cons, hxu]
      rw [hcong, List.map_cons, List.sum_cons]
      omega
    · have hun : u ≠ n := fun hc => hu (hc ▸ hmem2)
      rw [List.filter_cons, List.filter_cons]
      by_cases huv : u ∈ visited
      · rw [if_neg (by simp [huv]), if_neg (by simp [huv])]
        exact ih hrest hmem2 hnv
      · rw [if_pos (by simp [List.mem_cons, hun, huv]), if_pos (by simpa using huv),
          List.map_cons, List.sum_cons, List.map_cons, List.sum_cons]
        have := ih hrest hmem2 hnv
        omega

theorem cycleSearch_complete {connections : List Connection} {source : Nat}
    {uni : List Nat} (huni : uni.Nodup)
    (hdest : ∀ c ∈ connections, c.dest_node ∈ uni) :
    ∀ (fuel : Nat) (stack visited : List Nat),
    unvisitedWeight connections uni visited + stack.length ≤ fuel →
    (∀ n ∈ stack, n ∈ uni) →
    (∀ v ∈ visited, v ≠ source ∧
      ∀ y, EdgeRel connections v y → y ∈ visited ∨ y ∈ stack) →
    (∃ x ∈ stack, Reach connections x source) →
    cycleSearch connections source fuel stack visited = true := by
  intro fuel
  induction fuel with
  | zero =>
    intro stack visited hfuel hsub hJ hwit
    obtain ⟨x, hx, _⟩ := hwit
    cases stack with
    | nil => cases hx
    | cons a rest => simp at hfuel
  | succ fuel ih =>
    intro stack visited hfuel hsub hJ hwit
    cases stack with
    | nil =>
      obtain ⟨x, hx, _⟩ := hwit
      cases hx
    | cons node rest =>
      rw [cycleSearch]
      by_cases hsrcn : node = source
      · rw [if_pos hsrcn]
      · rw [if_neg hsrcn]
        have hsrcnv : source ∉ visited := fun hs => (hJ source hs).1 rfl
        by_cases hvis : node ∈ visited
        · rw [if_pos hvis]
          have hclosed : ∀ v ∈ visited, ∀ y, EdgeRel connections v y →
              y ∈ visited ∨ y ∈ rest := by
            intro v hv y hy
            rcases (hJ v hv).2 y hy with h | h
            · exact Or.inl h
            · rcases List.mem_cons.1 h with rfl | h2
              · exact Or.inl hvis
              · exact Or.inr h2
          refine ih rest visited ?_ (fun n hn => hsub n (by simp [hn])) ?_ ?_
          · simp only [List.length_cons] at hfuel
            omega
          · intro v hv
            exact ⟨(hJ v hv).1, hclosed v hv⟩
          · obtain ⟨x, hx, hreach⟩ := hwit
            rcases List.mem_cons.1 hx with rfl | hx2
            · exact reach_escape visited rest hclosed hsrcnv x hvis hreach
            · exact ⟨x, hx2, hreach⟩
        · rw [if_neg hvis]
          have hnodeuni : node ∈ uni := hsub node (by simp)
          have hw : unvisitedWeight connections uni (node :: visited) +
              succWeight connections node =
              unvisitedWeight connections uni visited :=
            unvisitedWeight_insert huni hnodeuni hvis
          refine ih _ _ ?_ ?_ ?_ ?_
          · simp only [List.length_append, List.length_cons, List.length_map,
              succWeight, succList] at *
            omega
          · intro n hn
            rcases List.mem_append.1 hn with hn | hn
            · obtain ⟨c, hc, hcd⟩ := List.mem_map.1 hn
              exact hcd ▸ hdest c (List.mem_of_mem_filter hc)
            · exact hsub n (by simp [hn])
          · intro v hv
            rcases List.mem_cons.1 hv with rfl | hv2
            · refine ⟨hsrcn, fun y hy => Or.inr ?_⟩
              exact List.mem_append.2 (Or.inl (mem_succList.2 hy))
            · refine ⟨(hJ v hv2).1, fun y hy => ?_⟩
              rcases (hJ v hv2).2 y hy with h | h
              · exact Or.inl (by simp [h])
              · rcases List.mem_cons.1 h with rfl | h2
                · exact Or.inl (by simp)
                · exact Or.inr (List.mem_append.2 (Or.inr h2))
          · obtain ⟨x, hx, hreach⟩ := hwit
            rcases List.mem_cons.1 hx with rfl | hx2
            · rcases (Relation.ReflTransGen.cases_head hreach) with rfl | ⟨y, hy, hyr⟩
              · exact absurd rfl hsrcn
              · exact ⟨y, List.mem_append.2 (Or.inl (mem_succList.2 hy)), hyr⟩
            · exact ⟨x, List.mem_append.2 (Or.inr hx2), hreach⟩

theorem length_filter_or {A : Type} (p q : A → Bool) :
    ∀ l : List A, (∀ x ∈ l, ¬ (p x = true ∧ q x = true)) →
    (l.filter (fun x => p x || q x)).length =
      (l.filter p).length + (l.filter q).length := by
  intro l
  induction l with
  | nil => intro _; simp
  | cons x rest ih =>
    intro hdisj
    have hrest := ih (fun y hy => hdisj y (by simp [hy]))
    by_cases hp : p x
    · have hq : ¬ q x = true := fun hq => hdisj x (by simp) ⟨hp, hq⟩
      rw [List.filter_cons, List.filter_cons, List.filter_cons]
      rw [if_pos (by simp [hp]), if_pos hp, if_neg (by simpa using hq)]
      simp only [List.length_cons, hrest]
      omega
    · rw [List.filter_cons, List.filter_cons, List.filter_cons]
      by_cases hq : q x
      · rw [if_pos (by simp [hq]), if_neg (by simpa using hp), if_pos hq]
        simp only [List.length_cons, hrest]
        omega
      · rw [if_neg (by simp [hp, hq]), if_neg (by simpa using hp),
          if_neg (by simpa using hq)]
        exact hrest

theorem sum_succLen_eq (connections : List Connection) :
    ∀ us : List Nat, us.Nodup →
    ((us.map (fun u => (succList connections u).length)).sum =
      (connections.filter (fun c => c.source_node ∈ us)).length) := by
  intro us
  induction us with
  | nil => intro _; simp
  | cons u rest ih =>
    intro hnd
    rcases List.nodup_cons.1 hnd with ⟨hu, hrest⟩
    rw [List.map_cons, List.sum_cons, ih hrest]
    have hdisj : ∀ c ∈ connections,
        ¬ (decide (c.source_node = u) = true ∧ decide (c.source_node ∈ rest) = true) := by
      intro c _ ⟨h1, h2⟩
      simp only [decide_eq_true_eq] at h1 h2
      exact hu (h1 ▸ h2)
    have hsplit := length_filter_or (fun c => decide (c.source_node = u))
      (fun c => decide (c.source_node ∈ rest)) connections hdisj
    have hcong : connections.filter (fun c => c.source_node ∈ u :: rest) =
        connections.filter (fun c =>
          decide (c.source_node = u) || decide (c.source_node ∈ rest)) := by
      apply List.filter_congr
      intro c _
      simp [List.mem_cons]
    rw [hcong, hsplit]
    unfold succList
    simp [List.length_map]

/-- `would_create_cycle(source, dest)` returns true exactly when `source` is
reachable from `dest` over the existing edges (including `source = dest`). -/
theorem would_create_cycle_iff_reach (g : AudioGraph) (source dest : Nat) :
    g.would_create_cycle source dest = true ↔ Reach g.connections dest source := by
  constructor
  · intro h
    refine cycleSearch_sound _ [dest] [] ?_ h
    intro n hn
    simp only [List.mem_singleton] at hn
    subst hn
    exact Relation.ReflTransGen.refl
  · intro hreach
    unfold AudioGraph.would_create_cycle
    have hnd : (dest :: g.connections.map (fun c => c.dest_node)).dedup.Nodup :=
      List.nodup_dedup _
    refine cycleSearch_complete hnd ?_ _ [dest] [] ?_ ?_ ?_ ?_
    · intro c hc
      rw [List.mem_dedup]
      exact List.mem_cons_of_mem _ (List.mem_map_of_mem _ hc)
    · have hfilter : (dest :: g.connections.map (fun c => c.dest_node)).dedup.filter
          (fun u => ¬ u ∈ ([] : List Nat)) =
          (dest :: g.connections.map (fun c => c.dest_node)).dedup := by
        rw [List.filter_eq_self]
        intro x _
        simp
      have hlen : (dest :: g.connections.map (fun c => c.dest_node)).dedup.length ≤
          1 + g.connections.length := by
        have h2 := (List.dedup_sublist
          (dest :: g.connections.map (fun c => c.dest_node))).length_le
        simp only [List.length_cons, List.length_map] at h2
        omega
      have hsum := sum_succLen_eq g.connections _ hnd
      have hflen : (g.connections.filter (fun c => c.source_node ∈
          (dest :: g.connections.map (fun c => c.dest_node)).dedup)).length ≤
          g.connections.length := List.length_filter_le _ _
      unfold unvisitedWeight
      rw [hfilter]
      have hmapsum : ((dest :: g.connections.map (fun c => c.dest_node)).dedup.map
          (succWeight g.connections)).sum =
          (dest :: g.connections.map (fun c => c.dest_node)).dedup.length +
          ((dest :: g.connections.map (fun c => c.dest_node)).dedup.map
            (fun u => (succList g.connections u).length)).sum := by
        unfold succWeight
        induction (dest :: g.connections.map (fun c => c.dest_node)).dedup with
        | nil => simp
        | cons a rest ih2 => simp only [List.map_cons, List.sum_cons, List.length_cons, ih2]; omega
      rw [hmapsum, hsum]
      simp only [List.length_singleton]
      omega
    · intro n hn
      simp only [List.mem_singleton] at hn
      subst hn
      rw [List.mem_dedup]
      simp
    · intro v hv
      cases hv
    · exact ⟨dest, by simp, hreach⟩

theorem edgeRel_append_elim {connections : List Connection} {c : Connection}
    {a b : Nat} (h : EdgeRel (connections ++ [c]) a b) :
    EdgeRel connections a b ∨ (a = c.source_node ∧ b = c.dest_node) := by
  obtain ⟨cc, hcc, hsrc, hdst⟩ := h
  rcases List.mem_append.1 hcc with hcc | hcc
  · exact Or.inl ⟨cc, hcc, hsrc, hdst⟩
  · simp only [List.mem_singleton] at hcc
    subst hcc
    exact Or.inr ⟨hsrc.symm, hdst.symm⟩

theorem reach_append_decompose {connections : List Connection} {c : Connection}
    (hnr : ¬ Reach connections c.dest_node c.source_node) :
    ∀ {a b : Nat}, Reach (connections ++ [c]) a b →
      Reach connections a b ∨
        (Reach connections a c.source_node ∧ Reach connections c.dest_node b) := by
  intro a b h
  induction h with
  | refl => exact Or.inl Relation.ReflTransGen.refl
  | tail hpath hstep ih =>
    rcases edgeRel_append_elim hstep with hstep2 | ⟨rfl, rfl⟩
    · rcases ih with h1 | ⟨h1, h2⟩
      · exact Or.inl (Relation.ReflTransGen.tail h1 hstep2)
      · exact Or.inr ⟨h1, Relation.ReflTransGen.tail h2 hstep2⟩
    · rcases ih with h1 | ⟨h1, h2⟩
      · exact Or.inr ⟨h1, Relation.ReflTransGen.refl⟩
      · exact absurd h2 hnr

theorem acyclic_append {connections : List Connection} {c : Connection}
    (hacyc : Acyclic connections)
    (hnr : ¬ Reach connections c.dest_node c.source_node) :
    Acyclic (connections ++ [c]) := by
  intro n hcyc
  obtain ⟨m, hstep, hpath⟩ := Relation.TransGen.head'_iff.1 hcyc
  rcases edgeRel_append_elim hstep with hstep2 | ⟨rfl, rfl⟩
  · rcases reach_append_decompose hnr hpath with h1 | ⟨h1, h2⟩
    · exact hacyc n (Relation.TransGen.head' hstep2 h1)
    · exact hnr (Relation.ReflTransGen.trans h2
        (Relation.ReflTransGen.tail (Relation.ReflTransGen.refl) hstep2 |>.trans h1))
  · rcases reach_append_decompose hnr hpath with h1 | ⟨h1, _⟩
    · exact hnr h1
    · exact hnr h1

/-- C2 (amended): `connect` checks in the source's order — source node
(`NodeNotFound`), source port (`PortNotFound`), dest node (`NodeNotFound`),
dest port (`PortNotFound`), exact duplicate (`DuplicateConnection`), and
cycle — where, all earlier checks passing, it fails with `CycleDetected` if
and only if the source is reachable from the destination over the existing
edges (which covers the self-loop `src = dst`); otherwise it succeeds,
appending exactly that connection and marking the graph dirty.  Every error
returns the graph unchanged, and on a duplicate-free acyclic graph the
connection list stays duplicate-free and acyclic after any `connect` call. -/
theorem connect_spec (g : AudioGraph) (s sp d dp : Nat) :
    (lookupNode g.nodes s = none →
      g.connect s sp d dp = (Except.error (GraphError.NodeNotFound s), g)) ∧
    (∀ si, lookupNode g.nodes s = some si → sp ≥ si.output_count →
      g.connect s sp d dp =
        (Except.error (GraphError.PortNotFound s sp (si.output_count - 1)), g)) ∧
    (∀ si, lookupNode g.nodes s = some si → sp < si.output_count →
      lookupNode g.nodes d = none →
      g.connect s sp d dp = (Except.error (GraphError.NodeNotFound d), g)) ∧
    (∀ si di, lookupNode g.nodes s = some si → sp < si.output_count →
      lookupNode g.nodes d = some di → dp ≥ di.input_count →
      g.connect s sp d dp =
        (Except.error (GraphError.PortNotFound d dp (di.input_count - 1)), g)) ∧
    (∀ si di, lookupNode g.nodes s = some si → sp < si.output_count →
      lookupNode g.nodes d = some di → dp < di.input_count →
      (⟨s, sp, d, dp⟩ : Connection) ∈ g.connections →
      g.connect s sp d dp = (Except.error GraphError.DuplicateConnection, g)) ∧
    (∀ si di, lookupNode g.nodes s = some si → sp < si.output_count →
      lookupNode g.nodes d = some di → dp < di.input_count →
      (⟨s, sp, d, dp⟩ : Connection) ∉ g.connections →
      (g.connect s sp d dp = (Except.error GraphError.CycleDetected, g) ↔
        Reach g.connections d s)) ∧
    (∀ si di, lookupNode g.nodes s = some si → sp < si.output_count →
      lookupNode g.nodes d = some di → dp < di.input_count →
      (⟨s, sp, d, dp⟩ : Connection) ∉ g.connections →
      ¬ Reach g.connections d s →
      g.connect s sp d dp =
        (Except.ok (),
         { g with connections := g.connections ++ [⟨s, sp, d, dp⟩], dirty := true })) ∧
    (g.connections.Nodup → Acyclic g.connections →
      ((g.connect s sp d dp).2).connections.Nodup ∧
        Acyclic ((g.connect s sp d dp).2).connections) := by
  have hcases := connect_cases g s sp d dp
  refine ⟨?_, ?_, ?_, ?_, ?_, ?_, ?_, ?_⟩
  · intro h1
    rcases hcases with ⟨_, hc⟩ | ⟨si, hsi, _, _⟩ | ⟨si, hsi, _, _, _⟩ |
      ⟨si, di, hsi, _, _, _, _⟩ | ⟨si, di, hsi, _, _, _, _, _⟩ |
      ⟨si, di, hsi, _, _, _, _, _, _⟩ | ⟨si, di, hsi, _, _, _, _, _, _⟩ <;>
      first
        | exact hc
        | (rw [h1] at hsi; cases hsi)
  · intro si h1 h2
    rcases hcases with ⟨hs0, _⟩ | ⟨si2, hsi, hp, hc⟩ | ⟨si2, hsi, hp, _, _⟩ |
      ⟨si2, di, hsi, hp, _, _, _⟩ | ⟨si2, di, hsi, hp, _, _, _, _⟩ |
      ⟨si2, di, hsi, hp, _, _, _, _, _⟩ | ⟨si2, di, hsi, hp, _, _, _, _, _⟩
    · rw [h1] at hs0; cases hs0
    · rw [h1] at hsi
      injection hsi with hsi
      subst hsi
      exact hc
    all_goals
      rw [h1] at hsi
      injection hsi with hsi
      subst hsi
      omega
  · intro si h1 h2 h3
    rcases hcases with ⟨hs0, _⟩ | ⟨si2, hsi, hp, hc⟩ | ⟨si2, hsi, hp, hd, hc⟩ |
      ⟨si2, di, hsi, hp, hd, _, _⟩ | ⟨si2, di, hsi, hp, hd, _, _, _⟩ |
      ⟨si2, di, hsi, hp, hd, _, _, _, _⟩ | ⟨si2, di, hsi, hp, hd, _, _, _, _⟩
    · rw [h1] at hs0; cases hs0
    · rw [h1] at hsi
      injection hsi with hsi
      subst hsi
      omega
    · exact hc
    all_goals
      rw [h3] at hd
      cases hd
  · intro si di h1 h2 h3 h4
    rcases hcases with ⟨hs0, _⟩ | ⟨si2, hsi, hp, hc⟩ | ⟨si2, hsi, hp, hd, hc⟩ |
      ⟨si2, di2, hsi, hp, hd, hq, hc⟩ | ⟨si2, di2, hsi, hp, hd, hq, _, _⟩ |
      ⟨si2, di2, hsi, hp, hd, hq, _, _, _⟩ | ⟨si2, di2, hsi, hp, hd, hq, _, _, _⟩
    · rw [h1] at hs0; cases hs0
    · rw [h1] at hsi
      injection hsi with hsi
      subst hsi
      omega
    · rw [h3] at hd; cases hd
    · rw [h3] at hd
      injection hd with hd
      subst hd
      exact hc
    all_goals
      rw [h3] at hd
      injection hd with hd
      subst hd
      omega
  · intro si di h1 h2 h3 h4 h5
    rcases hcases with ⟨hs0, _⟩ | ⟨si2, hsi, hp, hc⟩ | ⟨si2, hsi, hp, hd, hc⟩ |
      ⟨si2, di2, hsi, hp, hd, hq, hc⟩ | ⟨si2, di2, hsi, hp, hd, hq, hdup, hc⟩ |
      ⟨si2, di2, hsi, hp, hd, hq, hdup, _, _⟩ | ⟨si2, di2, hsi, hp, hd, hq, hdup, _, _⟩
    · rw [h1] at hs0; cases hs0
    · rw [h1] at hsi
      injection hsi with hsi
      subst hsi
      omega
    · rw [h3] at hd; cases hd
    · rw [h3] at hd
      injection hd with hd
      subst hd
      omega
    · exact hc
    all_goals exact absurd h5 hdup
  · intro si di h1 h2 h3 h4 h5
    rcases hcases with ⟨hs0, _⟩ | ⟨si2, hsi, hp, hc⟩ | ⟨si2, hsi, hp, hd, hc⟩ |
      ⟨si2, di2, hsi, hp, hd, hq, hc⟩ | ⟨si2, di2, hsi, hp, hd, hq, hdup, hc⟩ |
      ⟨si2, di2, hsi, hp, hd, hq, hdup, hcyc, hc⟩ |
      ⟨si2, di2, hsi, hp, hd, hq, hdup, hcyc, hc⟩
    · rw [h1] at hs0; cases hs0
    · rw [h1] at hsi
      injection hsi with hsi
      subst hsi
      omega
    · rw [h3] at hd; cases hd
    · rw [h3] at hd
      injection hd with hd
      subst hd
      omega
    · exact absurd hdup h5
    · constructor
      · intro _
        exact (would_create_cycle_iff_reach g s d).1 hcyc
      · intro _
        exact hc
    · constructor
      · intro hres
        rw [hc] at hres
        cases hres
      · intro hreach
        have := (would_create_cycle_iff_reach g s d).2 hreach
        rw [this] at hcyc
        cases hcyc
  · intro si di h1 h2 h3 h4 h5 h6
    rcases hcases with ⟨hs0, _⟩ | ⟨si2, hsi, hp, hc⟩ | ⟨si2, hsi, hp, hd, hc⟩ |
      ⟨si2, di2, hsi, hp, hd, hq, hc⟩ | ⟨si2, di2, hsi, hp, hd, hq, hdup, hc⟩ |
      ⟨si2, di2, hsi, hp, hd, hq, hdup, hcyc, hc⟩ |
      ⟨si2, di2, hsi, hp, hd, hq, hdup, hcyc, hc⟩
    · rw [h1] at hs0; cases hs0
    · rw [h1] at hsi
      injection hsi with hsi
      subst hsi
      omega
    · rw [h3] at hd; cases hd
    · rw [h3] at hd
      injection hd with hd
      subst hd
      omega
    · exact absurd hdup h5
    · exact absurd ((would_create_cycle_iff_reach g s d).1 hcyc) h6
    · exact hc
  · intro hnd hacyc
    rcases hcases with ⟨_, hc⟩ | ⟨si, _, _, hc⟩ | ⟨si, _, _, _, hc⟩ |
      ⟨si, di, _, _, _, _, hc⟩ | ⟨si, di, _, _, _, _, _, hc⟩ |
      ⟨si, di, _, _, _, _, _, _, hc⟩ | ⟨si, di, _, _, _, hq, hdup, hcyc, hc⟩
    all_goals rw [hc]
    · exact ⟨hnd, hacyc⟩
    · exact ⟨hnd, hacyc⟩
    · exact ⟨hnd, hacyc⟩
    · exact ⟨hnd, hacyc⟩
    · exact ⟨hnd, hacyc⟩
    · exact ⟨hnd, hacyc⟩
    · have hnr : ¬ Reach g.connections d s := by
        intro hr
        have := (would_create_cycle_iff_reach g s d).2 hr
        rw [this] at hcyc
        cases hcyc
      constructor
      · simp only [List.nodup_append, List.nodup_singleton, List.disjoint_singleton]
        exact ⟨hnd, by simp, by simpa using hdup⟩
      · exact acyclic_append hacyc hnr

/-- Counterexample to C2 as stated: with source node 0 present, source port 5
out of range, and destination node 99 absent, `connect` returns
`PortNotFound` for the source port — not `NodeNotFound` although a named
node (the destination) is absent, so the claim's error precedence
"NodeNotFound if src or dst is absent; otherwise PortNotFound ..." does not
hold: the code validates the source's port before looking the destination
node up. -/
theorem connect_spec_counterexample :
    lookupNode (((AudioGraph.new 48000 512).add_node NodeInfo.mono).2).nodes 99 = none ∧
    ((((AudioGraph.new 48000 512).add_node NodeInfo.mono).2).connect 0 5 99 0).1
      = Except.error (GraphError.PortNotFound 0 5 0) ∧
    ((((AudioGraph.new 48000 512).add_node NodeInfo.mono).2).connect 0 5 99 0).1
      ≠ Except.error (GraphError.NodeNotFound 99) :=
  ⟨by decide, by decide, by decide⟩

/-- Witness for C2: on the chain graph, connecting 0 -> 2 (no cycle) appends
exactly that connection and marks dirty; connecting 1 -> 0 is rejected with
`CycleDetected` because 1 is reachable from 0. -/
theorem connect_spec_witness :
    wg3.connect 0 0 2 0 =
      (Except.ok (),
       { wg3 with connections := wg3.connections ++ [⟨0, 0, 2, 0⟩], dirty := true }) ∧
    wg3.connect 1 0 0 0 = (Except.error GraphError.CycleDetected, wg3) := by
  constructor
  · exact (connect_spec wg3 0 0 2 0).2.2.2.2.2.2.1 NodeInfo.mono NodeInfo.mono
      (by decide) (by decide) (by decide) (by decide) (by decide)
      (fun hr => absurd ((would_create_cycle_iff_reach wg3 0 2).2 hr) (by decide))
  · exact ((connect_spec wg3 1 0 0 0).2.2.2.2.2.1 NodeInfo.mono NodeInfo.mono
      (by decide) (by decide) (by decide) (by decide) (by decide)).2
      (Relation.ReflTransGen.single ⟨⟨0, 0, 1, 0⟩, by decide, rfl, rfl⟩)

/-! ### Kahn's algorithm correctness (C1) -/

theorem keys_alSet (l : List (Nat × Nat)) (k x : Nat) :
    (alSet l k x).map Prod.fst = l.map Prod.fst := by
  unfold alSet
  rw [List.map_map]
  apply List.map_congr_left
  intro e _
  by_cases he : e.1 = k
  · simp [Function.comp_apply, he]
  · simp [Function.comp_apply, he]

theorem alGet_alSet_ne {l : List (Nat × Nat)} {k k' x : Nat} (h : k' ≠ k) :
    alGet (alSet l k x) k' = alGet l k' := by
  induction l with
  | nil => rfl
  | cons e rest ih =>
    unfold alSet alGet at *
    by_cases he : e.1 = k
    · rw [List.map_cons, if_pos he]
      rw [List.find?_cons_of_neg _ (by simpa using (Ne.symm h)),
        List.find?_cons_of_neg _ (by simp [he, Ne.symm h])]
      exact ih
    · rw [List.map_cons, if_neg he]
      by_cases hk' : e.1 = k'
      · rw [List.find?_cons_of_pos _ (by simpa using hk'),
          List.find?_cons_of_pos _ (by simpa using hk')]
      · rw [List.find?_cons_of_neg _ (by simpa using hk'),
          List.find?_cons_of_neg _ (by simpa using hk')]
        exact ih

theorem alGet_alSet_self {l : List (Nat × Nat)} {k x : Nat}
    (hmem : k ∈ l.map Prod.fst) : alGet (alSet l k x) k = x := by
  induction l with
  | nil => cases hmem
  | cons e rest ih =>
    unfold alSet alGet at *
    by_cases he : e.1 = k
    · rw [List.map_cons, if_pos he, List.find?_cons_of_pos _ (by simp)]
      rfl
    · rw [List.map_cons, if_neg he, List.find?_cons_of_neg _ (by simpa using he)]
      rcases List.mem_cons.1 hmem with h1 | h1
      · exact absurd h1.symm he
      · exact ih h1

theorem alGet_eq_zero_of_not_mem {l : List (Nat × Nat)} {k : Nat}
    (h : k ∉ l.map Prod.fst) : alGet l k = 0 := by
  induction l with
  | nil => rfl
  | cons e rest ih =>
    simp only [List.map_cons, List.mem_cons] at h
    push_neg at h
    have he : ¬ e.1 = k := fun hc => h.1 hc.symm
    unfold alGet at *
    rw [List.find?_cons_of_neg _ (by simpa using he)]
    exact ih h.2

theorem alSet_of_not_mem {l : List (Nat × Nat)} {k x : Nat}
    (h : k ∉ l.map Prod.fst) : alSet l k x = l := by
  induction l with
  | nil => rfl
  | cons e rest ih =>
    simp only [List.map_cons, List.mem_cons] at h
    push_neg at h
    unfold alSet at *
    rw [List.map_cons, if_neg (fun hc => h.1 hc.symm), ih h.2]

theorem mem_keys_of_alGet_pos {l : List (Nat × Nat)} {k : Nat}
    (h : 0 < alGet l k) : k ∈ l.map Prod.fst := by
  by_contra habs
  rw [alGet_eq_zero_of_not_mem habs] at h
  exact Nat.lt_irrefl 0 h

theorem alGet_of_mem {l : List (Nat × Nat)} (hnd : (l.map Prod.fst).Nodup)
    {e : Nat × Nat} (he : e ∈ l) : alGet l e.1 = e.2 := by
  induction l with
  | nil => cases he
  | cons a rest ih =>
    simp only [List.map_cons] at hnd
    rcases List.nodup_cons.1 hnd with ⟨ha, hrest⟩
    rcases List.mem_cons.1 he with rfl | h1
    · unfold alGet
      rw [List.find?_cons_of_pos _ (by simp)]
      rfl
    · have hne : a.1 ≠ e.1 := fun hc => ha (hc ▸ List.mem_map_of_mem Prod.fst h1)
      unfold alGet at *
      rw [List.find?_cons_of_neg _ (by simpa using hne)]
      exact ih hrest h1

theorem entry_mem_of_mem_keys {l : List (Nat × Nat)} {k : Nat}
    (h : k ∈ l.map Prod.fst) : (k, alGet l k) ∈ l := by
  induction l with
  | nil => cases h
  | cons e rest ih =>
    by_cases he : e.1 = k
    · have hg : alGet (e :: rest) k = e.2 := by
        unfold alGet
        rw [List.find?_cons_of_pos _ (by simpa using he)]
        rfl
      rw [hg, ← he]
      exact List.mem_cons_self e rest
    · have hmem2 : k ∈ rest.map Prod.fst := by
        simp only [List.map_cons, List.mem_cons] at h
        rcases h with h | h
        · exact absurd h.symm he
        · exact h
      have hg : alGet (e :: rest) k = alGet rest k := by
        unfold alGet
        rw [List.find?_cons_of_neg _ (by simpa using he)]
      rw [hg]
      exact List.mem_cons_of_mem e (ih hmem2)

theorem totalDeg_alSet {l : List (Nat × Nat)} (hnd : (l.map Prod.fst).Nodup)
    {k : Nat} (hmem : k ∈ l.map Prod.fst) (x : Nat) :
    totalDeg (alSet l k x) + alGet l k = totalDeg l + x := by
  induction l with
  | nil => cases hmem
  | cons e rest ih =>
    simp only [List.map_cons] at hnd
    rcases List.nodup_cons.1 hnd with ⟨ha, hrest⟩
    by_cases he : e.1 = k
    · have hrestkeys : k ∉ rest.map Prod.fst := he ▸ ha
      have hset : alSet (e :: rest) k x = (k, x) :: rest := by
        unfold alSet
        rw [List.map_cons, if_pos he]
        congr 1
        have hid : ∀ y ∈ rest, (if y.1 = k then ((k, x) : Nat × Nat) else y) = y := by
          intro y hy
          have hyk : ¬ y.1 = k := by
            intro hc
            exact hrestkeys (hc ▸ List.mem_map_of_mem Prod.fst hy)
          rw [if_neg hyk]
        rw [List.map_congr_left hid]
        simp
      have hget : alGet (e :: rest) k = e.2 := by
        unfold alGet
        rw [List.find?_cons_of_pos _ (by simpa using he)]
        rfl
      rw [hset, hget]
      unfold totalDeg
      simp only [List.map_cons, List.sum_cons]
      omega
    · have hmem2 : k ∈ rest.map Prod.fst := by
        simp only [List.map_cons, List.mem_cons] at hmem
        rcases hmem with h | h
        · exact absurd h.symm he
        · exact h
      have hset : alSet (e :: rest) k x = e :: alSet rest k x := by
        unfold alSet
        rw [List.map_cons, if_neg he]
      have hget : alGet (e :: rest) k = alGet rest k := by
        unfold alGet
        rw [List.find?_cons_of_neg _ (by simpa using he)]
      rw [hset, hget]
      have hih := ih hrest hmem2
      unfold totalDeg at hih ⊢
      simp only [List.map_cons, List.sum_cons]
      omega

theorem keys_kahnBump (inDeg : List (Nat × Nat)) (queue : List Nat) (v : Nat) :
    (kahnBump (inDeg, queue) v).1.map Prod.fst = inDeg.map Prod.fst :=
  keys_alSet inDeg v (alGet inDeg v - 1)

theorem alGet_kahnBump (inDeg : List (Nat × Nat)) (queue : List Nat) (v k : Nat) :
    alGet (kahnBump (inDeg, queue) v).1 k =
      alGet inDeg k - (if k = v then 1 else 0) := by
  unfold kahnBump
  simp only
  by_cases hk : k = v
  · subst hk
    by_cases hmem : k ∈ inDeg.map Prod.fst
    · rw [alGet_alSet_self hmem, if_pos rfl]
    · rw [alSet_of_not_mem hmem, alGet_eq_zero_of_not_mem hmem]
      simp
  · rw [alGet_alSet_ne hk, if_neg hk]
    omega

theorem mem_kahnBump_queue (inDeg : List (Nat × Nat)) (queue : List Nat) (v k : Nat) :
    k ∈ (kahnBump (inDeg, queue) v).2 ↔
      k ∈ queue ∨ (k = v ∧ alGet inDeg v = 1) := by
  unfold kahnBump
  simp only
  by_cases hd : alGet inDeg v = 1
  · rw [if_pos hd]
    simp only [List.mem_cons, hd, and_true]
    tauto
  · rw [if_neg hd]
    simp only [hd, and_false, or_false]

theorem zeros_kahnBump {inDeg : List (Nat × Nat)} {queue : List Nat} {v : Nat}
    (hq0 : ∀ k ∈ queue, alGet inDeg k = 0) :
    ∀ k ∈ (kahnBump (inDeg, queue) v).2, alGet (kahnBump (inDeg, queue) v).1 k = 0 := by
  intro k hk
  rw [alGet_kahnBump]
  rcases (mem_kahnBump_queue inDeg queue v k).1 hk with h | ⟨rfl, hd⟩
  · rw [hq0 k h]
    simp
  · rw [hd, if_pos rfl]

theorem nodup_kahnBump {inDeg : List (Nat × Nat)} {queue : List Nat} {v : Nat}
    (hq0 : ∀ k ∈ queue, alGet inDeg k = 0) (hqn : queue.Nodup) :
    (kahnBump (inDeg, queue) v).2.Nodup := by
  unfold kahnBump
  simp only
  by_cases hd : alGet inDeg v = 1
  · rw [if_pos hd]
    refine List.nodup_cons.2 ⟨?_, hqn⟩
    intro hv
    rw [hq0 v hv] at hd
    cases hd
  · rw [if_neg hd]
    exact hqn

theorem totalDeg_kahnBump {inDeg : List (Nat × Nat)} (hnd : (inDeg.map Prod.fst).Nodup)
    (queue : List Nat) (v : Nat) :
    totalDeg (kahnBump (inDeg, queue) v).1 + (kahnBump (inDeg, queue) v).2.length ≤
      totalDeg inDeg + queue.length := by
  unfold kahnBump
  simp only
  by_cases hmem : v ∈ inDeg.map Prod.fst
  · have hts := totalDeg_alSet hnd hmem (alGet inDeg v - 1)
    by_cases hd : alGet inDeg v = 1
    · rw [if_pos hd]
      simp only [List.length_cons]
      generalize hT : totalDeg (alSet inDeg v (alGet inDeg v - 1)) = T at hts ⊢
      omega
    · rw [if_neg hd]
      generalize hT : totalDeg (alSet inDeg v (alGet inDeg v - 1)) = T at hts ⊢
      omega
  · rw [alSet_of_not_mem hmem, alGet_eq_zero_of_not_mem hmem]
    simp

theorem foldBump_spec (vs : List Nat) :
    ∀ (inDeg : List (Nat × Nat)) (queue : List Nat),
    ((vs.foldl kahnBump (inDeg, queue)).1.map Prod.fst = inDeg.map Prod.fst) ∧
    (∀ k, alGet (vs.foldl kahnBump (inDeg, queue)).1 k = alGet inDeg k - vs.count k) ∧
    (∀ k, k ∈ (vs.foldl kahnBump (inDeg, queue)).2 ↔
      k ∈ queue ∨ (1 ≤ alGet inDeg k ∧ alGet inDeg k ≤ vs.count k)) ∧
    ((∀ k ∈ queue, alGet inDeg k = 0) → queue.Nodup →
      ((∀ k ∈ (vs.foldl kahnBump (inDeg, queue)).2,
          alGet (vs.foldl kahnBump (inDeg, queue)).1 k = 0) ∧
        (vs.foldl kahnBump (inDeg, queue)).2.Nodup)) ∧
    ((inDeg.map Prod.fst).Nodup →
      totalDeg (vs.foldl kahnBump (inDeg, queue)).1 +
        (vs.foldl kahnBump (inDeg, queue)).2.length ≤
        totalDeg inDeg + queue.length) := by
  induction vs with
  | nil =>
    intro inDeg queue
    refine ⟨rfl, ?_, ?_, ?_, ?_⟩
    · intro k
      simp
    · intro k
      simp only [List.foldl_nil, List.count_nil, Nat.le_zero]
      constructor
      · intro h
        exact Or.inl h
      · rintro (h | ⟨h1, h2⟩)
        · exact h
        · omega
    · intro hq0 hqn
      exact ⟨hq0, hqn⟩
    · intro _
      simp
  | cons v rest ih =>
    intro inDeg queue
    rw [List.foldl_cons]
    have hstep := ih (kahnBump (inDeg, queue) v).1 (kahnBump (inDeg, queue) v).2
    have hpair : ((kahnBump (inDeg, queue) v).1, (kahnBump (inDeg, queue) v).2) =
        kahnBump (inDeg, queue) v := rfl
    rw [hpair] at hstep
    obtain ⟨ha, hb, hc, hd, he⟩ := hstep
    have hcount : ∀ k : Nat, k ≠ v → (v :: rest).count k = rest.count k := by
      intro k hk
      simp [List.count_cons, fun hc => hk hc]
    have hcountv : (v :: rest).count v = rest.count v + 1 := by
      simp [List.count_cons]
    refine ⟨?_, ?_, ?_, ?_, ?_⟩
    · rw [ha, keys_kahnBump]
    · intro k
      rw [hb k, alGet_kahnBump]
      by_cases hk : k = v
      · subst hk
        rw [hcountv, if_pos rfl]
        omega
      · rw [hcount k hk, if_neg hk]
        omega
    · intro k
      rw [hc k, mem_kahnBump_queue, alGet_kahnBump]
      by_cases hk : k = v
      · subst hk
        rw [hcountv, if_pos rfl]
        constructor
        · rintro ((h | ⟨_, hd1⟩) | ⟨h1, h2⟩)
          · exact Or.inl h
          · right
            omega
          · right
            omega
        · rintro (h | ⟨h1, h2⟩)
          · exact Or.inl (Or.inl h)
          · by_cases hd1 : alGet inDeg k = 1
            · exact Or.inl (Or.inr ⟨rfl, hd1⟩)
            · right
              omega
      · rw [hcount k hk, if_neg hk]
        have hkv : ¬ (k = v ∧ alGet inDeg v = 1) := fun hcon => hk hcon.1
        simp only [hkv, or_false, Nat.sub_zero]
    · intro hq0 hqn
      exact hd (zeros_kahnBump hq0) (nodup_kahnBump hq0 hqn)
    · intro hnd
      have h1 := he (by rw [keys_kahnBump]; exact hnd)
      have h2 := totalDeg_kahnBump hnd queue v
      omega

/-- The multiplicity of `k` among the successors of `node` is the number of
`node -> k` edges. -/
theorem succList_count (conns : List Connection) (node k : Nat) :
    (succList conns node).count k =
      (conns.filter (fun c => c.source_node = node ∧ c.dest_node = k)).length := by
  induction conns with
  | nil => rfl
  | cons c rest ih =>
    unfold succList at *
    by_cases hs : c.source_node = node
    · rw [List.filter_cons_of_pos (by simpa using hs), List.map_cons]
      by_cases hdk : c.dest_node = k
      · rw [List.filter_cons_of_pos (by simp [hs, hdk])]
        simp only [List.length_cons, List.count_cons, ih]
        simp [hdk]
      · rw [List.filter_cons_of_neg (by simp [hdk])]
        simp only [List.count_cons, ih]
        simp [hdk, fun h : k = c.dest_node => hdk h.symm]
    · rw [List.filter_cons_of_neg (by simpa using hs),
        List.filter_cons_of_neg (by simp [hs])]
      exact ih

/-- Splitting the in-edges of `k` whose source is unprocessed by whether the
source is the node being processed now. -/
theorem inEdge_split (conns : List Connection) (order : List Nat) (node k : Nat)
    (hnode : node ∉ order) :
    (conns.filter (fun c => c.dest_node = k ∧ c.source_node ∉ order)).length =
      (conns.filter (fun c => c.source_node = node ∧ c.dest_node = k)).length +
      (conns.filter (fun c => c.dest_node = k ∧
        c.source_node ∉ order ++ [node])).length := by
  have hdisj : ∀ c ∈ conns,
      ¬ (decide (c.source_node = node ∧ c.dest_node = k) = true ∧
         decide (c.dest_node = k ∧ c.source_node ∉ order ++ [node]) = true) := by
    intro c _ hpair
    rcases hpair with ⟨h1, h2⟩
    simp only [decide_eq_true_eq] at h1 h2
    exact h2.2 (by simp [h1.1])
  have hsplit := length_filter_or
    (fun c => decide (c.source_node = node ∧ c.dest_node = k))
    (fun c => decide (c.dest_node = k ∧ c.source_node ∉ order ++ [node])) conns hdisj
  have hcong : conns.filter (fun c => c.dest_node = k ∧ c.source_node ∉ order) =
      conns.filter (fun c =>
        decide (c.source_node = node ∧ c.dest_node = k) ||
        decide (c.dest_node = k ∧ c.source_node ∉ order ++ [node])) := by
    apply List.filter_congr
    intro c _
    by_cases hs : c.source_node = node
    · by_cases hdk : c.dest_node = k
      · simp [hs, hdk, hnode]
      · simp [hs, hdk]
    · by_cases hdk : c.dest_node = k
      · simp [hs, hdk, List.mem_append]
      · simp [hs, hdk]
  rw [hcong, hsplit]

/-- The loop invariant of Kahn's algorithm in `compile`: `keys` are the arena
keys, `order` the emitted prefix, `queue` the ready set.  `k7` is the heart:
the in-degree map holds, for every node, the number of in-edges whose source
has not been emitted yet. -/
structure KahnInv (conns : List Connection) (keys : List Nat)
    (inDeg : List (Nat × Nat)) (queue order : List Nat) : Prop where
  k1 : inDeg.map Prod.fst = keys
  k2 : order.Nodup
  k3 : ∀ n ∈ order, n ∈ keys
  k4 : queue.Nodup
  k5 : ∀ n ∈ queue, n ∈ keys
  k6 : ∀ n ∈ queue, n ∉ order
  k7 : ∀ k ∈ keys, alGet inDeg k =
    (conns.filter (fun c => c.dest_node = k ∧ c.source_node ∉ order)).length
  k8 : ∀ k ∈ queue, alGet inDeg k = 0
  k9 : ∀ k ∈ keys, k ∉ order → alGet inDeg k = 0 → k ∈ queue
  k10 : ∀ c ∈ conns, c.dest_node ∈ order →
    c.source_node ∈ order ∧ order.indexOf c.source_node < order.indexOf c.dest_node
  k11 : ∀ k ∈ order, alGet inDeg k = 0

/-- One iteration of the Kahn loop body preserves the invariant: pop `node`,
decrement its successors, emit it. -/
theorem kahnStep_inv {conns : List Connection} {keys : List Nat}
    {inDeg : List (Nat × Nat)} {queue order : List Nat} {node : Nat}
    (hinv : KahnInv conns keys inDeg (node :: queue) order) :
    KahnInv conns keys ((succList conns node).foldl kahnBump (inDeg, queue)).1
      ((succList conns node).foldl kahnBump (inDeg, queue)).2 (order ++ [node]) := by
  obtain ⟨fa, fb, fc, fd, _⟩ := foldBump_spec (succList conns node) inDeg queue
  have hq0 : ∀ k ∈ queue, alGet inDeg k = 0 :=
    fun k hk => hinv.k8 k (List.mem_cons_of_mem node hk)
  have hqn : queue.Nodup := (List.nodup_cons.1 hinv.k4).2
  have hnode_q : node ∉ queue := (List.nodup_cons.1 hinv.k4).1
  have hnode_o : node ∉ order := hinv.k6 node (List.mem_cons_self node queue)
  have hnode0 : alGet inDeg node = 0 := hinv.k8 node (List.mem_cons_self node queue)
  obtain ⟨fz, fnd⟩ := fd hq0 hqn
  -- every in-edge of `node` has an emitted source
  have hnode_in : ∀ c ∈ conns, c.dest_node = node → c.source_node ∈ order := by
    intro c hc hdest
    have h7 := hinv.k7 node (hinv.k5 node (List.mem_cons_self node queue))
    rw [hnode0] at h7
    have hnil := List.eq_nil_of_length_eq_zero h7.symm
    by_contra hso
    have : c ∈ conns.filter
        (fun c => c.dest_node = node ∧ c.source_node ∉ order) := by
      rw [List.mem_filter]
      exact ⟨hc, by simp [hdest, hso]⟩
    rw [hnil] at this
    cases this
  refine ⟨?_, ?_, ?_, fnd, ?_, ?_, ?_, fz, ?_, ?_, ?_⟩
  · rw [fa, hinv.k1]
  · have : node ∉ order := hnode_o
    simp [List.nodup_append, hinv.k2, this]
  · intro n hn
    rcases List.mem_append.1 hn with h | h
    · exact hinv.k3 n h
    · rcases List.mem_singleton.1 h with rfl
      exact hinv.k5 n (List.mem_cons_self n queue)
  · intro n hn
    rcases (fc n).1 hn with h | ⟨h1, _⟩
    · exact hinv.k5 n (List.mem_cons_of_mem node h)
    · have : 0 < alGet inDeg n := h1
      rw [← hinv.k1]
      exact mem_keys_of_alGet_pos this
  · intro n hn
    rcases (fc n).1 hn with h | ⟨h1, _⟩
    · intro hmem
      rcases List.mem_append.1 hmem with h2 | h2
      · exact hinv.k6 n (List.mem_cons_of_mem node h) h2
      · rcases List.mem_singleton.1 h2 with rfl
        exact hnode_q h
    · intro hmem
      have hz : alGet inDeg n = 0 := by
        rcases List.mem_append.1 hmem with h2 | h2
        · exact hinv.k11 n h2
        · rcases List.mem_singleton.1 h2 with rfl
          exact hnode0
      omega
  · intro k hk
    rw [fb k, succList_count]
    have h7 := hinv.k7 k hk
    have hsplit := inEdge_split conns order node k hnode_o
    omega
  · intro k hk hko hk0
    rw [fb k] at hk0
    have hko1 : k ∉ order := fun h => hko (List.mem_append.2 (Or.inl h))
    have hkn : k ≠ node := by
      intro h
      exact hko (List.mem_append.2 (Or.inr (by simp [h])))
    by_cases hz : alGet inDeg k = 0
    · have := hinv.k9 k hk hko1 hz
      rcases List.mem_cons.1 this with h | h
      · exact absurd h hkn
      · exact (fc k).2 (Or.inl h)
    · refine (fc k).2 (Or.inr ⟨by omega, by omega⟩)
  · intro c hc hdest
    rcases List.mem_append.1 hdest with h | h
    · obtain ⟨hso, hlt⟩ := hinv.k10 c hc h
      refine ⟨List.mem_append.2 (Or.inl hso), ?_⟩
      rw [List.indexOf_append_of_mem hso, List.indexOf_append_of_mem h]
      exact hlt
    · rcases List.mem_singleton.1 h with hdn
      have hso : c.source_node ∈ order := hnode_in c hc hdn
      refine ⟨List.mem_append.2 (Or.inl hso), ?_⟩
      rw [List.indexOf_append_of_mem hso, hdn,
        List.indexOf_append_of_not_mem hnode_o]
      have : order.indexOf c.source_node < order.length :=
        List.indexOf_lt_length.2 hso
      simp only [List.indexOf_cons_self]
      omega
  · intro k hk
    rw [fb k]
    rcases List.mem_append.1 hk with h | h
    · rw [hinv.k11 k h]
      simp
    · rcases List.mem_singleton.1 h with rfl
      rw [hnode0]
      simp

/-- Running the Kahn loop with enough fuel (the measure `totalDeg + |queue|`)
ends with an empty queue and the invariant intact. -/
theorem kahnLoop_inv {conns : List Connection} {keys : List Nat}
    (hkeys : keys.Nodup) :
    ∀ (fuel : Nat) (inDeg : List (Nat × Nat)) (queue order : List Nat),
    KahnInv conns keys inDeg queue order →
    totalDeg inDeg + queue.length ≤ fuel →
    ∃ inDeg', KahnInv conns keys inDeg' []
      (kahnLoop conns fuel inDeg queue order) := by
  intro fuel
  induction fuel with
  | zero =>
    intro inDeg queue order hinv hfuel
    cases queue with
    | nil => exact ⟨inDeg, hinv⟩
    | cons n q => simp at hfuel
  | succ fuel ihf =>
    intro inDeg queue order hinv hfuel
    cases queue with
    | nil => exact ⟨inDeg, hinv⟩
    | cons node q =>
      have hstep := kahnStep_inv hinv
      have hndk : (inDeg.map Prod.fst).Nodup := by
        rw [hinv.k1]
        exact hkeys
      have h5 := (foldBump_spec (succList conns node) inDeg q).2.2.2.2 hndk
      have hmeas : totalDeg ((succList conns node).foldl kahnBump (inDeg, q)).1 +
          ((succList conns node).foldl kahnBump (inDeg, q)).2.length ≤ fuel := by
        simp only [List.length_cons] at hfuel
        omega
      exact ihf _ _ _ hstep hmeas

/-- The seed state of `compile` — exact in-degrees, the zero-degree nodes
queued, nothing emitted — satisfies the invariant. -/
theorem kahnInv_init (g : AudioGraph) (hwf : g.NodesWF) :
    KahnInv g.connections (g.nodes.map Prod.fst) (initInDegree g)
      (((initInDegree g).filter (fun e => e.2 = 0)).map Prod.fst) [] := by
  have hk1 : (initInDegree g).map Prod.fst = g.nodes.map Prod.fst := by
    unfold initInDegree
    rw [List.map_map]
    rfl
  have hnd : ((initInDegree g).map Prod.fst).Nodup := by
    rw [hk1]
    exact hwf.1
  have hsub : (((initInDegree g).filter (fun e => e.2 = 0)).map Prod.fst).Sublist
      ((initInDegree g).map Prod.fst) :=
    ((initInDegree g).filter_sublist).map Prod.fst
  refine ⟨hk1, List.nodup_nil, ?_, ?_, ?_, ?_, ?_, ?_, ?_, ?_, ?_⟩
  · intro n hn
    cases hn
  · exact hnd.sublist hsub
  · intro n hn
    rw [← hk1]
    exact hsub.subset hn
  · intro n _ hn
    cases hn
  · intro k hk
    rcases List.mem_map.1 hk with ⟨e, he, hek⟩
    have hmem : (e.1, (g.connections.filter (fun c => c.dest_node = e.1)).length)
        ∈ initInDegree g := List.mem_map_of_mem _ he
    have hget := alGet_of_mem hnd hmem
    subst hek
    refine hget.trans ?_
    show (g.connections.filter (fun c => c.dest_node = e.1)).length = _
    congr 1
    apply List.filter_congr
    intro c _
    simp
  · intro k hk
    rcases List.mem_map.1 hk with ⟨e, he, hek⟩
    rcases List.mem_filter.1 he with ⟨he1, he2⟩
    have hget := alGet_of_mem hnd he1
    rw [← hek, hget]
    exact of_decide_eq_true he2
  · intro k hk _ hk0
    have hkin : k ∈ (initInDegree g).map Prod.fst := by
      rw [hk1]
      exact hk
    have hmem := entry_mem_of_mem_keys hkin
    rw [hk0] at hmem
    refine List.mem_map.2 ⟨(k, 0), List.mem_filter.2 ⟨hmem, by simp⟩, rfl⟩
  · intro c _ hc
    cases hc
  · intro k hk
    cases hk

/-- From the exit invariant, the emitted order is topological: along any
directed path the index strictly increases. -/
theorem kahnOrder_index_mono {conns : List Connection} {keys : List Nat}
    {inDeg : List (Nat × Nat)} {order : List Nat}
    (hinv : KahnInv conns keys inDeg [] order) :
    ∀ a b, Relation.TransGen (EdgeRel conns) a b → b ∈ order →
      a ∈ order ∧ order.indexOf a < order.indexOf b := by
  intro a b htg
  induction htg with
  | single h =>
    intro hb
    rcases h with ⟨c, hc, hs, hd⟩
    have h2 := hinv.k10 c hc (by rw [hd]; exact hb)
    rw [hs, hd] at h2
    exact h2
  | tail hab hbc ih =>
    intro hb
    rcases hbc with ⟨c, hc, hs, hd⟩
    have h2 := hinv.k10 c hc (by rw [hd]; exact hb)
    rw [hs, hd] at h2
    have h1 := ih h2.1
    exact ⟨h1.1, lt_trans h1.2 h2.2⟩

/-- From the exit invariant (empty queue), if the graph is acyclic then every
node was emitted: an unemitted node would have an unemitted in-neighbor, and
iterating that map must repeat — a cycle. -/
theorem kahnFinal_complete {conns : List Connection} {keys : List Nat}
    {inDeg : List (Nat × Nat)} {order : List Nat}
    (hconn : ∀ c ∈ conns, c.source_node ∈ keys ∧ c.dest_node ∈ keys)
    (hinv : KahnInv conns keys inDeg [] order)
    (hacyc : Acyclic conns) : ∀ k ∈ keys, k ∈ order := by
  by_contra habs
  push_neg at habs
  obtain ⟨u0, hu0k, hu0o⟩ := habs
  have hpred : ∀ k, k ∈ keys ∧ k ∉ order →
      ∃ k', (k' ∈ keys ∧ k' ∉ order) ∧ EdgeRel conns k' k := by
    intro k hk
    have hpos : alGet inDeg k ≠ 0 := by
      intro h0
      exact absurd (hinv.k9 k hk.1 hk.2 h0) (List.not_mem_nil k)
    have h7 := hinv.k7 k hk.1
    have hlenpos : 0 < (conns.filter
        (fun c => c.dest_node = k ∧ c.source_node ∉ order)).length := by omega
    obtain ⟨c, hcmem⟩ := List.exists_mem_of_length_pos hlenpos
    rcases List.mem_filter.1 hcmem with ⟨hc, hprop⟩
    simp only [decide_eq_true_eq] at hprop
    exact ⟨c.source_node, ⟨(hconn c hc).1, hprop.2⟩, ⟨c, hc, rfl, hprop.1⟩⟩
  have hpredT : ∀ k, ∃ k', k ∈ keys ∧ k ∉ order →
      (k' ∈ keys ∧ k' ∉ order) ∧ EdgeRel conns k' k := by
    intro k
    by_cases hk : k ∈ keys ∧ k ∉ order
    · obtain ⟨k', h⟩ := hpred k hk
      exact ⟨k', fun _ => h⟩
    · exact ⟨0, fun h => absurd h hk⟩
  choose f hf using hpredT
  have hseqU : ∀ n, f^[n] u0 ∈ keys ∧ f^[n] u0 ∉ order := by
    intro n
    induction n with
    | zero => exact ⟨hu0k, hu0o⟩
    | succ n ih =>
      rw [Function.iterate_succ_apply']
      exact (hf _ ih).1
  have hedge : ∀ n, EdgeRel conns (f^[n + 1] u0) (f^[n] u0) := by
    intro n
    rw [Function.iterate_succ_apply']
    exact (hf _ (hseqU n)).2
  have hchain : ∀ d i, Relation.TransGen (EdgeRel conns)
      (f^[(i + d) + 1] u0) (f^[i] u0) := by
    intro d
    induction d with
    | zero =>
      intro i
      exact Relation.TransGen.single (hedge i)
    | succ d ih =>
      intro i
      exact Relation.TransGen.head (hedge ((i + d) + 1)) (ih i)
  have hcard : ∃ i ∈ Finset.range (keys.length + 1),
      ∃ j ∈ Finset.range (keys.length + 1), i ≠ j ∧ f^[i] u0 = f^[j] u0 := by
    have hcard2 : keys.toFinset.card < (Finset.range (keys.length + 1)).card := by
      rw [Finset.card_range]
      exact Nat.lt_succ_of_le keys.toFinset_card_le
    have hmaps : ∀ n ∈ Finset.range (keys.length + 1), f^[n] u0 ∈ keys.toFinset :=
      fun n _ => List.mem_toFinset.2 (hseqU n).1
    exact Finset.exists_ne_map_eq_of_card_lt_of_maps_to hcard2 hmaps
  obtain ⟨i, _, j, _, hij, heq⟩ := hcard
  rcases Nat.lt_or_ge i j with hlt | hge
  · have hc := hchain (j - i - 1) i
    rw [show (i + (j - i - 1)) + 1 = j from by omega] at hc
    rw [← heq] at hc
    exact hacyc _ hc
  · have hlt : j < i := by omega
    have hc := hchain (i - j - 1) j
    rw [show (j + (i - j - 1)) + 1 = i from by omega] at hc
    rw [heq] at hc
    exact hacyc _ hc

/-- C1: on a well-formed graph (distinct arena keys, edge endpoints present —
the API-maintained arena invariant), `compile()` succeeds exactly when the
node/edge set is a DAG; on success the stored processing order contains
exactly one entry per node (it is duplicate-free and holds precisely the
arena keys) and, for every connection, the source node appears strictly
earlier in the order than the destination node; on failure it returns
`CycleDetected` leaving the graph — in particular the previously stored
processing order and the dirty flag — completely unchanged. -/
theorem compile_spec (g : AudioGraph) (hwf : g.NodesWF) :
    (((g.compile).1 = Except.ok ()) ↔ Acyclic g.connections) ∧
    ((g.compile).1 = Except.ok () →
      ((g.compile).2.processing_order.Nodup ∧
        (∀ n, n ∈ (g.compile).2.processing_order ↔ n ∈ g.nodes.map Prod.fst) ∧
        ∀ c ∈ g.connections,
          (g.compile).2.processing_order.indexOf c.source_node <
            (g.compile).2.processing_order.indexOf c.dest_node)) ∧
    ((g.compile).1 ≠ Except.ok () →
      g.compile = (Except.error GraphError.CycleDetected, g)) := by
  obtain ⟨inDeg', hfin⟩ := kahnLoop_inv hwf.1
    (totalDeg (initInDegree g) +
      (((initInDegree g).filter (fun e => e.2 = 0)).map Prod.fst).length)
    (initInDegree g) (((initInDegree g).filter (fun e => e.2 = 0)).map Prod.fst) []
    (kahnInv_init g hwf) (Nat.le_refl _)
  simp only [AudioGraph.compile]
  generalize hres : kahnLoop g.connections
    (totalDeg (initInDegree g) +
      (((initInDegree g).filter (fun e => e.2 = 0)).map Prod.fst).length)
    (initInDegree g) (((initInDegree g).filter (fun e => e.2 = 0)).map Prod.fst) []
    = result
  rw [hres] at hfin
  have hsp : result.Subperm (g.nodes.map Prod.fst) :=
    hfin.k2.subperm (fun n h => hfin.k3 n h)
  have hlenle : result.length ≤ g.nodes.length := by
    have h1 := hsp.length_le
    simpa using h1
  by_cases hlen : result.length ≠ g.nodes.length
  · rw [if_pos hlen]
    have hnotac : ¬ Acyclic g.connections := by
      intro hacyc
      have hall := kahnFinal_complete hwf.2 hfin hacyc
      have hsp2 : (g.nodes.map Prod.fst).Subperm result :=
        hwf.1.subperm (fun n h => hall n h)
      have h2 := hsp2.length_le
      simp only [List.length_map] at h2
      omega
    refine ⟨⟨?_, ?_⟩, ?_, ?_⟩
    · intro h
      simp at h
    · intro hac
      exact absurd hac hnotac
    · intro h
      simp at h
    · intro _
      rfl
  · rw [if_neg hlen]
    push_neg at hlen
    have hperm : result.Perm (g.nodes.map Prod.fst) :=
      hsp.perm_of_length_le (by simp [hlen])
    have hall : ∀ k ∈ g.nodes.map Prod.fst, k ∈ result :=
      fun k hk => hperm.mem_iff.2 hk
    have hmono := kahnOrder_index_mono hfin
    have hacyc : Acyclic g.connections := by
      intro n htg
      have hn : n ∈ g.nodes.map Prod.fst := by
        cases htg with
        | single h =>
          rcases h with ⟨c, hc, _, hd⟩
          exact hd ▸ (hwf.2 c hc).2
        | tail _ hbc =>
          rcases hbc with ⟨c, hc, _, hd⟩
          exact hd ▸ (hwf.2 c hc).2
      exact absurd (hmono n n htg (hall n hn)).2 (lt_irrefl _)
    refine ⟨⟨fun _ => hacyc, fun _ => rfl⟩, ?_, ?_⟩
    · intro _
      refine ⟨hfin.k2, ?_, ?_⟩
      · intro n
        exact ⟨fun h => hfin.k3 n h, fun h => hall n h⟩
      · intro c hc
        have hd : c.dest_node ∈ result := hall _ (hwf.2 c hc).2
        exact (hmono c.source_node c.dest_node
          (Relation.TransGen.single ⟨c, hc, rfl, rfl⟩) hd).2
    · intro h
      exact absurd rfl h

instance (g : AudioGraph) : Decidable g.NodesWF := by
  unfold AudioGraph.NodesWF
  infer_instance

/-- Witness for C1: the chain graph 0 -> 1 -> 2 is well-formed, and applying
the theorem to it turns its observed successful compilation into acyclicity
and a duplicate-free stored order. -/
theorem compile_spec_witness :
    wg3.NodesWF ∧ Acyclic wg3.connections ∧
      (wg3.compile).2.processing_order.Nodup :=
  ⟨by decide,
   (compile_spec wg3 (by decide)).1.mp (by decide),
   ((compile_spec wg3 (by decide)).2.1 (by decide)).1⟩
